import Mathlib

/-!
Verification development for the Hindi text-normalization measure tagger
(`nemo_text_processing/text_normalization/hi/taggers/measure.py`) and the
punctuation-spacing post-processor
(`nemo_text_processing/text_normalization/hi/verbalizers/post_processing.py`).

The weighted-FST grammars are shallowly embedded as executable matchers:
each sub-grammar of the measure tagger's union becomes a function
`List Char → Option (String × Int)` returning the tag string produced on a
full-token match together with the total path weight (weights are scaled by
100, so the source weight 0.1 is the integer 10).  The union of alternatives
becomes a candidate list and shortest-weighted-path selection becomes
minimum-weight selection with lexicographic tie-break on the output string.
The post-processor's two rewrite passes become deterministic string rewrites
composed in the order the source composes them.

Data tables loaded from `.tsv` files (digit names, unit names, gazetteers,
keyword lexica) and the constants/classes of `graph_utils.py`,
`CardinalFst`, `DecimalFst`, `OrdinalFst` and `PunctuationFst` are not part
of the given sources; those parts are modelled from the specification and
from the examples quoted in the sources' docstrings, and each such
definition is marked `Modelled from the spec:` in its doc comment.
-/

/-! ## Digit primitives (two glyph sets) -/

/-- Numeric value of a digit character in either supported glyph set:
ASCII (Arabic) digits and Devanagari digits.  Mirrors the union of the
`NEMO_DIGIT` and `NEMO_HI_DIGIT` character classes. -/
def digitVal (c : Char) : Option Nat :=
  if '0' ≤ c ∧ c ≤ '9' then some (c.toNat - '0'.toNat)
  else if '०' ≤ c ∧ c ≤ '९' then some (c.toNat - '०'.toNat)
  else none

/-- Whether a character is a digit of either glyph set. -/
def isDig (c : Char) : Bool := (digitVal c).isSome

/-- Whether a character denotes zero in either glyph set. -/
def isZeroDig (c : Char) : Bool := digitVal c = some 0

/-- Numeric value of a digit string (most significant digit first). -/
def digitsVal (l : List Char) : Nat :=
  l.foldl (fun a c => a * 10 + ((digitVal c).getD 0)) 0

/-- A canonical cardinal digit string: nonempty, all digits, and no leading
zero unless the string is the single digit zero.  This is the set of strings
accepted by the magnitude-tier cardinal graphs
(`zero | digit | teens_and_ties | hundreds | ...`), whose data tables list
each number once in canonical form. -/
def canonicalNum (l : List Char) : Bool :=
  match l with
  | [] => false
  | c :: rest => isDig c && rest.all isDig && (!(isZeroDig c) || rest.isEmpty)

/-- Longest digit prefix of a token and the remainder. -/
def spanDig (l : List Char) : List Char × List Char :=
  (l.takeWhile isDig, l.dropWhile isDig)

/-- First value bound to a key in an association list (the string-map
tables are finite relations keyed by their input side). -/
def lookupT {α β : Type} [DecidableEq α] (k : α) : List (α × β) → Option β
  | [] => none
  | p :: tl => if k = p.1 then some p.2 else lookupT k tl

/-! ## Hindi number spellout

Modelled from the spec: the cardinal sub-grammar's digit/teens/hundreds
word tables (`digit.tsv`, `teens_and_ties.tsv`, ...) are data files that are
not part of the given sources.  The spellout below is a total function on
values; the entries actually cited by the sources' docstrings
(e.g. 12 -> "बारह") are exact. -/

/-- Spoken word for a single digit value (used for digits, zero and
per-digit telephone-style reading). -/
def onesWord : Nat → String
  | 0 => "शून्य"
  | 1 => "एक"
  | 2 => "दो"
  | 3 => "तीन"
  | 4 => "चार"
  | 5 => "पाँच"
  | 6 => "छह"
  | 7 => "सात"
  | 8 => "आठ"
  | 9 => "नौ"
  | _ => ""

/-- Spoken word for a multiple of ten below one hundred. -/
def tensWord : Nat → String
  | 1 => "दस"
  | 2 => "बीस"
  | 3 => "तीस"
  | 4 => "चालीस"
  | 5 => "पचास"
  | 6 => "साठ"
  | 7 => "सत्तर"
  | 8 => "अस्सी"
  | 9 => "नब्बे"
  | _ => ""

/-- Exact table entries below one hundred (teens table). -/
def teensTable : List (Nat × String) :=
  [(10, "दस"), (11, "ग्यारह"), (12, "बारह"), (13, "तेरह"), (14, "चौदह"),
   (15, "पंद्रह"), (16, "सोलह"), (17, "सत्रह"), (18, "अठारह"), (19, "उन्नीस"),
   (20, "बीस"), (70, "सत्तर")]

/-- Spoken form of a value below one hundred. -/
def smallWord (n : Nat) : String :=
  if n < 10 then onesWord n
  else
    match lookupT n teensTable with
    | some w => w
    | none =>
      if n % 10 = 0 then tensWord (n / 10)
      else tensWord (n / 10) ++ " " ++ onesWord (n % 10)

/-- Spoken form of a cardinal value, composed by magnitude tiers
(ones, hundreds, thousands, lakhs), as the tiered cardinal graphs do. -/
def hindiNum (n : Nat) : String :=
  if n = 0 then onesWord 0
  else
    let small := n % 100
    let hund := n / 100 % 10
    let thou := n / 1000 % 100
    let lakh := n / 100000 % 100
    let parts :=
      (if lakh = 0 then [] else [smallWord lakh ++ " लाख"]) ++
      (if thou = 0 then [] else [smallWord thou ++ " हज़ार"]) ++
      (if hund = 0 then [] else [smallWord hund ++ " सौ"]) ++
      (if small = 0 then [] else [smallWord small])
    String.intercalate " " parts

/-- Per-digit spoken word for a digit character (telephone-style reading). -/
def digitWordStr (c : Char) : String := onesWord ((digitVal c).getD 0)

/-- Per-digit spoken reading of a digit string, words separated by spaces. -/
def fracWords (l : List Char) : String :=
  String.intercalate " " (l.map digitWordStr)

/-! ## Modelled data tables for the measure tagger -/

/-- Modelled from the spec: the general unit abbreviation table
(`data/measure/unit.tsv`, a closed vocabulary mapping abbreviations to full
unit names).  The `kg` -> `किलोग्राम` entry is exact per the source
docstring.  The table contains a `yr` entry, which the source then removes
(`unit_inputs_except_yr`). -/
def unitTable : List (List Char × String) :=
  [("kg".toList, "किलोग्राम"), ("g".toList, "ग्राम"), ("mg".toList, "मिलीग्राम"),
   ("km".toList, "किलोमीटर"), ("cm".toList, "सेंटीमीटर"), ("ml".toList, "मिलीलीटर"),
   ("yr".toList, "वर्ष")]

/-- All units except the reserved year unit: the source computes the
difference of the unit table's input projection with `yr` and re-composes
with the unit table. -/
def unitNoYear : List (List Char × String) :=
  unitTable.filter (fun p => !(p.1 == "yr".toList))

/-- Informal year unit map, built inline in the source:
`pynini.string_map([("yr", "साल")])`. -/
def yearInformalWord : String := "साल"

/-- Modelled from the spec: the formal year unit table
(`data/measure/unit_year_formal.tsv`); the source comments name the formal
form `वर्ष`. -/
def yearFormalWord : String := "वर्ष"

/-- Modelled from the spec: quarterly-unit map
(`data/measure/quarterly_units_map.tsv`, abbreviation -> full name). -/
def quarterlyMapL : List (List Char × String) :=
  [("kg".toList, "किलोग्राम"), ("hr".toList, "घंटे"), ("l".toList, "लीटर")]

/-- Modelled from the spec: quarterly-unit acceptor list
(`data/measure/quarterly_units_list.tsv`, Hindi unit words accepted
verbatim). -/
def quarterlyListL : List (List Char) :=
  ["किलो".toList, "घंटे".toList, "लीटर".toList]

/-- Quarterly unit resolution: the union of the map (an FST) and the list
(an FSA, passing the word through). -/
def quarterlyLookup (k : List Char) : Option String :=
  match lookupT k quarterlyMapL with
  | some u => some u
  | none => if k ∈ quarterlyListL then some (String.mk k) else none

/-- Modelled from the spec: the `paune` mapping table
(`data/whitelist/paune_mappings.tsv`), mapping the written integer part of
an `<int>.75` literal to the spoken next integer. -/
def pauneT : List (List Char × String) :=
  [("0".toList, "एक"), ("1".toList, "दो"), ("2".toList, "तीन"), ("3".toList, "चार"),
   ("०".toList, "एक"), ("१".toList, "दो"), ("२".toList, "तीन"), ("३".toList, "चार")]

/-- Modelled from the spec: the `HI_BY` connector word for the visual
multiplication symbols (constant in `graph_utils.py`). -/
def hiBy : String := "बाय"

/-- Modelled from the spec: the `HI_SAVVA` quarter-past prefix word. -/
def hiSavva : String := "सवा"

/-- Modelled from the spec: the `HI_SADHE` half-past prefix word. -/
def hiSadhe : String := "साढ़े"

/-- Modelled from the spec: the `HI_PAUNE` quarter-to prefix word. -/
def hiPaune : String := "पौने"

/-- Modelled from the spec: the state/city gazetteer
(`data/address/states.tsv` and `cities.tsv`); the `मुंबई` and `गोवा`
entries are exact per the source docstring examples. -/
def gazetteerL : List (List Char) :=
  ["मुंबई".toList, "गोवा".toList, "दिल्ली".toList]

/-- Modelled from the spec: Hindi address context keywords
(`data/address/context.tsv`). -/
def contextHiL : List (List Char) :=
  ["रोड".toList, "स्ट्रीट".toList, "मार्ग".toList, "नगर".toList]

/-- Modelled from the spec: English address keywords with Hindi
translation (`data/address/en_to_hi_mapping.tsv`). -/
def enToHiL : List (List Char × String) :=
  [("road".toList, "रोड"), ("street".toList, "स्ट्रीट"), ("nagar".toList, "नगर")]

/-- Modelled from the spec: ordinal words recognized inside address
windows (the `OrdinalFst` graph is not part of the given sources). -/
def ordinalT : List (List Char × String) :=
  [("1st".toList, "पहला"), ("2nd".toList, "दूसरा")]

/-- Modelled from the spec: letter transliteration table
(`data/address/letters.tsv`, e.g. `A -> ए`, `B -> बी`). -/
def letterT : List (Char × String) :=
  [('A', "ए"), ('B', "बी"), ('C', "सी"), ('D', "डी")]

/-- Modelled from the spec: special characters spoken in addresses
(`data/address/special_characters.tsv`); `हाइफ़न` for the hyphen is exact
per the source docstring example. -/
def specialT : List (Char × String) :=
  [('-', "हाइफ़न"), ('/', "स्लैश")]

/-! ## Shared token pieces -/

/-- The optional negative sign: `optional_graph_negative` consumes a
leading `-` and reports whether it was present. -/
def stripNeg : List Char → Bool × List Char
  | [] => (false, [])
  | c :: r => if c = '-' then (true, r) else (false, c :: r)

/-- Tag fragment inserted by `optional_graph_negative`. -/
def negStr (b : Bool) : String := if b then "negative: \"true\" " else ""

/-- The cardinal-plus-unit tag shape shared by the cardinal, year and
quarter-idiom alternatives. -/
def cardTag (neg : Bool) (integer unit : String) : String :=
  "cardinal \x7b " ++ negStr neg ++ "integer: \"" ++ integer ++
    "\" \x7d units: \"" ++ unit ++ "\" "

/-- The decimal-plus-unit tag shape. -/
def decTag (neg : Bool) (ip fp unit : String) : String :=
  "decimal \x7b " ++ negStr neg ++ "integer_part: \"" ++ ip ++
    "\" fractional_part: \"" ++ fp ++ "\" \x7d units: \"" ++ unit ++ "\" "

/-- The one-token-to-two-tag-groups shape of `graph_exceptions`: the
first cardinal tag closes with the connector unit and a second adjacent
`tokens \x7b cardinal \x7b ...` group opens for the second cardinal. -/
def excTag (n1 : Bool) (i1 : String) (n2 : Bool) (i2 : String) : String :=
  "cardinal \x7b " ++ negStr n1 ++ "integer: \"" ++ i1 ++ "\" \x7d units: \"" ++
    hiBy ++ "\" \x7d \x7d tokens \x7b cardinal \x7b " ++ negStr n2 ++
    "integer: \"" ++ i2 ++ "\""

/-- The `delete_space` transducer deletes an optional run of spaces. -/
def dropSp (l : List Char) : List Char := l.dropWhile (fun c => c = ' ')

/-- Upper bound of the tiered cardinal union used by `graph_cardinal`
(`zero | digit | teens_and_ties | hundreds | thousands | ten_thousands |
lakhs | ten_lakhs`): values below one crore. -/
def inCardRange (n : Nat) : Bool := n < 10000000

/-! ## Measure sub-grammar matchers

Each matcher consumes a whole input token and returns the produced tag
string and the total path weight (scaled by 100), or `none` when the
sub-grammar does not accept the token.  The weight added to each
alternative in the source union (`measure.py`, final `graph =` union) is
included by the `graph...` wrapper around each core. -/

/-- Core of `graph_cardinal`: optional negative, a tiered cardinal, deleted
spaces, and a non-year unit abbreviation mapped to its full name. -/
def cardCore (s : List Char) : Option String :=
  let p := stripNeg s
  let q := spanDig p.2
  if canonicalNum q.1 = true ∧ inCardRange (digitsVal q.1) = true then
    match lookupT (dropSp q.2) unitNoYear with
    | some u => some (cardTag p.1 (hindiNum (digitsVal q.1)) u)
    | none => none
  else none

/-- `graph_cardinal` carries union weight 0.1. -/
def graphCardinal (s : List Char) : Option (String × Int) :=
  (cardCore s).map (fun t => (t, 10))

/-- Core of `graph_cardinal_year_formal`: a no-leading-zeros cardinal of
any magnitude (`cardinal.graph_without_leading_zeros`) followed by the
reserved year unit, verbalized with the formal year word. -/
def yearFormalCore (s : List Char) : Option String :=
  let p := stripNeg s
  let q := spanDig p.2
  if canonicalNum q.1 = true ∧ dropSp q.2 = "yr".toList then
    some (cardTag p.1 (hindiNum (digitsVal q.1)) yearFormalWord)
  else none

/-- `graph_cardinal_year_formal` carries union weight 0.1. -/
def graphCardinalYearFormal (s : List Char) : Option (String × Int) :=
  (yearFormalCore s).map (fun t => (t, 10))

/-- Core of `graph_cardinal_year_informal`: a small cardinal
(`zero | digit | teens_and_ties | graph_hundreds`, i.e. values below one
thousand) followed by the reserved year unit, verbalized with the informal
year word. -/
def yearInformalCore (s : List Char) : Option String :=
  let p := stripNeg s
  let q := spanDig p.2
  if canonicalNum q.1 = true ∧ digitsVal q.1 < 1000 ∧ dropSp q.2 = "yr".toList then
    some (cardTag p.1 (hindiNum (digitsVal q.1)) yearInformalWord)
  else none

/-- `graph_cardinal_year_informal` carries union weight -0.1 (the source
comments: higher priority for small numbers). -/
def graphCardinalYearInformal (s : List Char) : Option (String × Int) :=
  (yearInformalCore s).map (fun t => (t, -10))

/-- Core of `graph_decimal`: optional negative, integer part, deleted
point, per-digit fractional part, deleted spaces, and a non-year unit. -/
def decimalCore (s : List Char) : Option String :=
  let p := stripNeg s
  let q := spanDig p.2
  match q.2 with
  | c :: r2 =>
    let f := spanDig r2
    if c = '.' ∧ canonicalNum q.1 = true ∧ inCardRange (digitsVal q.1) = true ∧ f.1 ≠ [] then
      match lookupT (dropSp f.2) unitNoYear with
      | some u => some (decTag p.1 (hindiNum (digitsVal q.1)) (fracWords f.1) u)
      | none => none
    else none
  | [] => none

/-- `graph_decimal` carries union weight 0.1. -/
def graphDecimal (s : List Char) : Option (String × Int) :=
  (decimalCore s).map (fun t => (t, 10))

/-- Core of `graph_decimal_year_formal`: a decimal followed by the
reserved year unit, always verbalized with the formal year word. -/
def decimalYearFormalCore (s : List Char) : Option String :=
  let p := stripNeg s
  let q := spanDig p.2
  match q.2 with
  | c :: r2 =>
    let f := spanDig r2
    if c = '.' ∧ canonicalNum q.1 = true ∧ inCardRange (digitsVal q.1) = true ∧ f.1 ≠ [] ∧
        dropSp f.2 = "yr".toList then
      some (decTag p.1 (hindiNum (digitsVal q.1)) (fracWords f.1) yearFormalWord)
    else none
  | [] => none

/-- `graph_decimal_year_formal` carries union weight 0.1. -/
def graphDecimalYearFormal (s : List Char) : Option (String × Int) :=
  (decimalYearFormalCore s).map (fun t => (t, 10))

/-- The fixed `1.5` / `2.5` literals (either glyph set) with their
idiomatic words (`ONE_POINT_FIVE -> HI_DEDH`, `TWO_POINT_FIVE -> HI_DHAI`). -/
def matchDedhDhai (l : List Char) : Option (String × List Char) :=
  if l.take 3 = ['1', '.', '5'] ∨ l.take 3 = ['१', '.', '५'] then some ("डेढ़", l.drop 3)
  else if l.take 3 = ['2', '.', '5'] ∨ l.take 3 = ['२', '.', '५'] then some ("ढाई", l.drop 3)
  else none

/-- Core of `graph_dedh_dhai`: the idiomatic literal followed by a
quarterly unit. -/
def dedhDhaiCore (s : List Char) : Option String :=
  let p := stripNeg s
  match matchDedhDhai p.2 with
  | some (w, rest) =>
    match quarterlyLookup (dropSp rest) with
    | some u => some (cardTag p.1 w u)
    | none => none
  | none => none

/-- `graph_dedh_dhai` carries union weight -0.2. -/
def graphDedhDhai (s : List Char) : Option (String × Int) :=
  (dedhDhaiCore s).map (fun t => (t, -20))

/-- The deleted `.25` literal suffix (`DECIMAL_25`, either glyph set). -/
def matchPoint25 (l : List Char) : Option (List Char) :=
  if l.take 3 = ['.', '2', '5'] ∨ l.take 3 = ['.', '२', '५'] then some (l.drop 3) else none

/-- The deleted `.5` literal suffix (`POINT_FIVE`, either glyph set). -/
def matchPoint5 (l : List Char) : Option (List Char) :=
  if l.take 2 = ['.', '5'] ∨ l.take 2 = ['.', '५'] then some (l.drop 2) else none

/-- The deleted `.75` literal suffix (`DECIMAL_75`, either glyph set). -/
def matchPoint75 (l : List Char) : Option (List Char) :=
  if l.take 3 = ['.', '7', '5'] ∨ l.take 3 = ['.', '७', '५'] then some (l.drop 3) else none

/-- Core of `graph_savva`: a cardinal, the deleted `.25`, and a quarterly
unit, spoken as the `सवा`-prefixed cardinal. -/
def savvaCore (s : List Char) : Option String :=
  let p := stripNeg s
  let q := spanDig p.2
  if canonicalNum q.1 = true ∧ inCardRange (digitsVal q.1) = true then
    match matchPoint25 q.2 with
    | some rest =>
      match quarterlyLookup (dropSp rest) with
      | some u => some (cardTag p.1 (hiSavva ++ " " ++ hindiNum (digitsVal q.1)) u)
      | none => none
    | none => none
  else none

/-- `graph_savva` carries union weight -0.1. -/
def graphSavva (s : List Char) : Option (String × Int) :=
  (savvaCore s).map (fun t => (t, -10))

/-- Core of `graph_sadhe`: a cardinal, the deleted `.5`, and a quarterly
unit, spoken as the `साढ़े`-prefixed cardinal. -/
def sadheCore (s : List Char) : Option String :=
  let p := stripNeg s
  let q := spanDig p.2
  if canonicalNum q.1 = true ∧ inCardRange (digitsVal q.1) = true then
    match matchPoint5 q.2 with
    | some rest =>
      match quarterlyLookup (dropSp rest) with
      | some u => some (cardTag p.1 (hiSadhe ++ " " ++ hindiNum (digitsVal q.1)) u)
      | none => none
    | none => none
  else none

/-- `graph_sadhe` carries union weight -0.1. -/
def graphSadhe (s : List Char) : Option (String × Int) :=
  (sadheCore s).map (fun t => (t, -10))

/-- Core of `graph_paune`: a written integer part from the paune table,
the deleted `.75`, and a quarterly unit, spoken as the `पौने`-prefixed
next integer. -/
def pauneCore (s : List Char) : Option String :=
  let p := stripNeg s
  let q := spanDig p.2
  match lookupT q.1 pauneT with
  | some w =>
    match matchPoint75 q.2 with
    | some rest =>
      match quarterlyLookup (dropSp rest) with
      | some u => some (cardTag p.1 (hiPaune ++ " " ++ w) u)
      | none => none
    | none => none
  | none => none

/-- `graph_paune` carries union weight -0.5. -/
def graphPaune (s : List Char) : Option (String × Int) :=
  (pauneCore s).map (fun t => (t, -50))

/-- The visual multiplication symbols handled by `symbol_graph`. -/
def isMulSym (c : Char) : Bool := c = 'x' || c = 'X' || c = '*'

/-- Core of `graph_exceptions`: a cardinal clubbed with a multiplication
symbol and a second cardinal in a single token; the symbol becomes the
connector unit word and the output opens a second adjacent token group. -/
def exceptionsCore (s : List Char) : Option String :=
  let p := stripNeg s
  let q := spanDig p.2
  match q.2 with
  | c :: r2 =>
    if isMulSym c = true ∧ canonicalNum q.1 = true ∧ inCardRange (digitsVal q.1) = true then
      let p2 := stripNeg r2
      let q2 := spanDig p2.2
      if canonicalNum q2.1 = true ∧ inCardRange (digitsVal q2.1) = true ∧ q2.2 = [] then
        some (excTag p.1 (hindiNum (digitsVal q.1)) p2.1 (hindiNum (digitsVal q2.1)))
      else none
    else none
  | [] => none

/-- `graph_exceptions` carries union weight 0.1. -/
def graphExceptions (s : List Char) : Option (String × Int) :=
  (exceptionsCore s).map (fun t => (t, 10))

/-! ## Structured address grammar (`get_structured_address_graph`) -/

/-- Sentence punctuation excluded from free-text address words
(`COMMA`, `PERIOD`, `HI_PERIOD`). -/
def isAddrPunct (c : Char) : Bool := c = ',' || c = '.' || c = '।'

/-- Characters allowed in a free-text address word (`word_char`:
any non-space character that is neither a digit nor sentence
punctuation). -/
def isWordChar (c : Char) : Bool := !(c = ' ') && !(isDig c) && !(isAddrPunct c)

/-- Splits a token at single spaces into segments (words keep a trailing
comma, if any, as part of their segment). -/
def splitSp : List Char → List (List Char)
  | [] => [[]]
  | c :: r =>
    if c = ' ' then [] :: splitSp r
    else (c :: (splitSp r).headD []) :: (splitSp r).tail

/-- Drops one trailing comma from a segment (the optional comma of the
separator `sep = ","? " "`). -/
def stripComma (seg : List Char) : List Char × Bool :=
  if seg.getLast? = some ',' then (seg.dropLast, true) else (seg, false)

/-- A street-number segment: one to four digit tokens, optional trailing
comma. -/
def isStreetSeg (seg : List Char) : Bool :=
  let w := (stripComma seg).1
  !w.isEmpty && w.length ≤ 4 && w.all isDig

/-- A free-text word segment: a nonempty word of `word_char` characters,
optional trailing comma. -/
def isTextSeg (seg : List Char) : Bool :=
  let w := (stripComma seg).1
  !w.isEmpty && w.all isWordChar

/-- A pincode segment: exactly six digit tokens (an exact bounded
repetition `closure(..., 5, 5)` after the first digit, not an open-ended
loop). -/
def isPinSeg (seg : List Char) : Bool :=
  seg.length = 6 && seg.all isDig

/-- Per-digit spoken reading of a digit segment with an optional trailing
comma passed through (the street-number transduction). -/
def streetOut (seg : List Char) : String :=
  let p := stripComma seg
  fracWords p.1 ++ (if p.2 then "," else "")

/-- Output body of the structured address pattern: street digits spoken
per digit, free text and the place name passed through verbatim, pincode
digits spoken per digit. -/
def structuredBody (street : Option (List Char)) (texts : List (List Char))
    (name : List Char) (pin : Option (List Char)) : String :=
  (match street with
   | some st => streetOut st ++ " "
   | none => "") ++
  String.join (texts.map (fun t => String.mk t ++ " ")) ++
  String.mk name ++
  (match pin with
   | some pc => " " ++ fracWords pc
   | none => "")

/-- Wraps an address body in the address tag emitted by both address
grammars. -/
def addrTag (body : String) : String :=
  "units: \"address\" cardinal \x7b integer: \"" ++ body ++ "\" \x7d preserve_order: true"

/-- Body of `get_structured_address_graph` after splitting at the place
name: checks the optional street number and the bounded free-text words. -/
def structuredCheckBody (nameSeg : List Char) (mids : List (List Char))
    (pin : Option (List Char)) : Option String :=
  if nameSeg ∈ gazetteerL then
    match mids with
    | [] => some (addrTag (structuredBody none [] nameSeg pin))
    | first :: restMids =>
      if isStreetSeg first then
        if restMids.all isTextSeg = true ∧ restMids.length ≤ 5 then
          some (addrTag (structuredBody (some first) restMids nameSeg pin))
        else none
      else
        if (first :: restMids).all isTextSeg = true ∧ (first :: restMids).length ≤ 5 then
          some (addrTag (structuredBody none (first :: restMids) nameSeg pin))
        else none
  else none

/-- Core of `get_structured_address_graph`: the pattern
`[street_num sep]? word_with_sep{0,5} state_city [" " pincode]?`,
deterministic because street segments (all digits) and text segments (no
digits) are disjoint and the place name is the last non-pincode segment. -/
def structuredCore (s : List Char) : Option String :=
  let segs := splitSp s
  match segs.reverse with
  | [] => none
  | lastSeg :: revInit =>
    if isPinSeg lastSeg then
      match revInit with
      | [] => none
      | nameSeg :: revMid => structuredCheckBody nameSeg revMid.reverse (some lastSeg)
    else structuredCheckBody lastSeg revInit.reverse none

/-- The structured address graph carries weight 1.0. -/
def structuredAddress (s : List Char) : Option (String × Int) :=
  (structuredCore s).map (fun t => (t, 100))

/-! ## Shortest-path selection -/

/-- Executable lexicographic comparison of character lists by code point
(the order underlying Lean's string order, written out so that it
evaluates on concrete inputs). -/
def charListLt : List Char → List Char → Bool
  | [], [] => false
  | [], _ :: _ => true
  | _ :: _, [] => false
  | x :: xs, y :: ys => if x < y then true else if y < x then false else charListLt xs ys

/-- Lexicographic order on strings by code point. -/
def strLt (a b : String) : Bool := charListLt a.data b.data

/-- Modelled from the spec: shortest-weighted-path selection over a
candidate lattice (the path-selection engine is external to the given
sources): the minimum-weight candidate wins and ties are broken by
lexicographic order of the output string, never by construction order. -/
def selectBest : List (String × Int) → Option (String × Int)
  | [] => none
  | c :: cs =>
    some (cs.foldl
      (fun a b => if b.2 < a.2 ∨ (b.2 = a.2 ∧ strLt b.1 a.1 = true) then b else a) c)

/-! ## Contextual address grammar (`get_address_graph`) -/

/-- Address keywords: native Hindi keywords united with the input
projection of the English-to-Hindi keyword map. -/
def contextKeywordsL : List (List Char) :=
  contextHiL ++ enToHiL.map (fun p => p.1)

/-- Whether a character is convertible inside an address window: digits,
hyphen/slash, or a transliterable letter (`convertible_char`). -/
def isConvChar (c : Char) : Bool :=
  isDig c || c = '-' || c = '/' || (letterT.map (fun p => p.1)).contains c

/-- Spoken word for one convertible character (`char_to_word` united with
`letter_to_word`). -/
def convCharWord (c : Char) : String :=
  match digitVal c with
  | some d => onesWord d
  | none =>
    match lookupT c specialT with
    | some w => w
    | none => (lookupT c letterT).getD ""

/-- Weight of processing one convertible character: transliterated
letters cost 0.5 (`letter_processor`), digits and special characters cost
0 (`digit_char_processor`). -/
def convCharWeight (c : Char) : Int :=
  if (letterT.map (fun p => p.1)).contains c then 50 else 0

/-- Whether the first list is an initial run of the second (a table key
matching at the current position of the token processor). -/
def leadsWith : List Char → List Char → Bool
  | [], _ => true
  | _ :: _, [] => false
  | x :: xs, y :: ys => if x = y then leadsWith xs ys else false

/-- A character accepted by `other_word_processor`: `non_space_char` is
any character that is not whitespace, not convertible and not a comma. -/
def isPlainChar (c : Char) : Bool := !isConvChar c && c != ' ' && c != ','

/-- Length of the maximal plain-character run at the front of a word. -/
def plainRunLen (w : List Char) : Nat := (w.takeWhile isPlainChar).length

/-- Paths of the token processor that start by matching a table entry (an
ordinal or an English-to-Hindi keyword) at the current position.  The
closure places no word-boundary requirement between tokens, so a table
key may match inside a word (`road` inside `roads`). -/
def keyPaths (tab : List (List Char × String)) (wt : Int)
    (f : List Char → List (String × Int)) (w : List Char) : List (String × Int) :=
  tab.foldr
    (fun p acc =>
      (if leadsWith p.1 w = true then
        (f (w.drop p.1.length)).map (fun q => (" " ++ p.2 ++ q.1, wt + q.2))
      else []) ++ acc)
    []

/-- Paths of the token processor that start with a nonempty plain run
consumed by `other_word_processor` at weight 0.1: the closure inside the
processor may stop at any point, so every nonempty initial segment of the
maximal plain run is a possible first token. -/
def runPaths (f : List Char → List (String × Int)) (w : List Char) : List (String × Int) :=
  (List.range (plainRunLen w)).foldr
    (fun i acc =>
      ((f (w.drop (i + 1))).map
        (fun q => (" " ++ String.mk (w.take (i + 1)) ++ q.1, 10 + q.2))) ++ acc)
    []

/-- All accepting paths of `full_string_processor` over one word, with
output and weight: at each position the next token may be an ordinal
(weight -5.0), an English keyword (-3.0), a single convertible character
(letters 0.5, digits and special characters 0), a comma (passed through
at 0 with no inserted space), or any nonempty plain run (0.1).  Sub-word
matches need no boundary, so `roads` admits `रोड` + `s` at -2.9.  The
fuel argument bounds the recursion and is instantiated with the word
length; every token consumes at least one character. -/
def procPathsF : Nat → List Char → List (String × Int)
  | _, [] => [("", 0)]
  | 0, _ :: _ => []
  | n + 1, c :: r =>
    keyPaths ordinalT (-500) (procPathsF n) (c :: r) ++
    keyPaths enToHiL (-300) (procPathsF n) (c :: r) ++
    (if isConvChar c then
      (procPathsF n r).map (fun q => (" " ++ convCharWord c ++ q.1, convCharWeight c + q.2))
    else []) ++
    (if c = ',' then (procPathsF n r).map (fun q => ("," ++ q.1, q.2)) else []) ++
    runPaths (procPathsF n) (c :: r)

/-- Minimum-weight processing of one word token of the address window:
the best accepting path of the token processors over the word, `none` if
the word admits no path. -/
def procWordBest (w : List Char) : Option (String × Int) :=
  selectBest (procPathsF w.length w)

/-- Collects the per-word best paths; the full-string processor accepts
the window only if every word admits a path. -/
def allSomes : List (Option (String × Int)) → Option (List (String × Int))
  | [] => some []
  | none :: _ => none
  | some a :: rest =>
    match allSomes rest with
    | some l => some (a :: l)
    | none => none

/-- Joins processed word outputs with the pass-through single spaces of
the input. -/
def joinProc (outs : List (String × Int)) : String × Int :=
  match outs with
  | [] => ("", 0)
  | o :: rest =>
    let r := joinProc rest
    (o.1 ++ (if rest.isEmpty then "" else " ") ++ r.1, o.2 + r.2)

/-- Core of `get_address_graph`: a context keyword with at most five words
before it and at most five words after it (the bounded window pattern),
composed with the minimum-weight path of `full_string_processor` over the
whole string.  Tokens never span a space (no key contains one), so the
best path processes each word independently and passes the separating
spaces through; within a word sub-word table matches are enumerated by
`procPathsF`.  A keyword-first match needs following material or a
trailing boundary (`keywords + boundary + window`).  The model fixes
single-space separators and picks the first keyword occurrence. -/
def addressContextCore (s : List Char) : Option (String × Int) :=
  let segs := splitSp s
  if segs.any (fun seg => seg.isEmpty) then none
  else
    match segs.findIdx? (fun seg => seg ∈ contextKeywordsL) with
    | none => none
    | some i =>
      if i ≤ 5 ∧ segs.length - 1 - i ≤ 5 ∧ (0 < i ∨ 2 ≤ segs.length) then
        match allSomes (segs.map procWordBest) with
        | some outs =>
          let pr := joinProc outs
          some (addrTag pr.1, pr.2)
        | none => none
      else none

/-- The contextual address graph carries weight 1.05, added to the token
processing weights of its best path. -/
def addressContext (s : List Char) : Option (String × Int) :=
  (addressContextCore s).map (fun p => (p.1, 105 + p.2))

/-! ## Union and shortest-path selection -/

/-- The union of the measure tagger's alternatives, in source order, with
each alternative's weight attached (`MeasureFst.__init__`, final union). -/
def measureCandidates (s : List Char) : List (String × Int) :=
  (graphDecimal s).toList ++ (graphDecimalYearFormal s).toList ++
  (graphCardinal s).toList ++ (graphCardinalYearFormal s).toList ++
  (graphCardinalYearInformal s).toList ++ (graphExceptions s).toList ++
  (graphDedhDhai s).toList ++ (graphSavva s).toList ++ (graphSadhe s).toList ++
  (graphPaune s).toList ++ (addressContext s).toList ++ (structuredAddress s).toList

/-- The measure tagger's selected output for one input token. -/
def measureBest (s : List Char) : Option (String × Int) :=
  selectBest (measureCandidates s)

/-! ## Punctuation-spacing post-processor (`post_processing.py`) -/

/-- Punctuation marks that must not keep a preceding space.  The Hindi
danda, comma, period, semicolon, colon, exclamation and question marks are
added explicitly in the source; the remaining members (closing brackets,
percent) are modelled from the spec as the punctuation table minus quotes,
dashes and opening brackets. -/
def noSpaceBeforeSet : List Char :=
  ['।', ',', '.', ';', ':', '!', '?', ')', ']', '\x7d', '>', '%']

/-- Opening brackets: these keep a preceding space and lose a following
space (`brackets` in the source). -/
def openBrackets : List Char := ['<', '\x7b', '(', '[']

/-- Quotes and dashes exempted from space deletion
(`quotes + dashes` in the source). -/
def quotesDashes : List Char := ['\x27', '"', '«', '-', '—']

/-- First pass: the shortest path of the weighted graph deletes one space
immediately preceding each mark of the no-space-before set. -/
def noSpaceBefore : List Char → List Char
  | [] => []
  | [c] => [c]
  | a :: b :: r =>
    if a = ' ' ∧ b ∈ noSpaceBeforeSet then b :: noSpaceBefore r
    else a :: noSpaceBefore (b :: r)

/-- One left-to-right pass of the bracket rewrite: the flag records
whether the previously emitted character is an opening bracket (the left
context of `cdrewrite` is matched on the output side, so a whole run of
spaces after a bracket collapses). -/
def nsaGo (afterBracket : Bool) : List Char → List Char
  | [] => []
  | c :: r =>
    if afterBracket = true ∧ c = ' ' then nsaGo true r
    else c :: nsaGo (c ∈ openBrackets) r

/-- Second pass: the obligatory left-to-right context rewrite deletes the
spaces following an opening bracket. -/
def noSpaceAfter (l : List Char) : List Char := nsaGo false l

/-- The full post-processor: the no-space-before pass runs first and the
no-space-after-bracket rewrite is composed on its result. -/
def postprocess (l : List Char) : List Char := noSpaceAfter (noSpaceBefore l)

/-! ## Spec-side predicates used to state the claims -/

/-- A segment of the shape the spec calls an optional short numeric
prefix: one to four digit tokens followed by the separator's optional
comma. -/
def specStreet (seg : List Char) : Prop :=
  ∃ (ds : List Char) (b : Bool), seg = ds ++ (if b then [','] else []) ∧
    1 ≤ ds.length ∧ ds.length ≤ 4 ∧ ds.all isDig = true

/-- A segment of the shape the spec calls a free-text word followed by an
optional comma (the mandatory space is the segment separator). -/
def specWord (seg : List Char) : Prop :=
  ∃ (w : List Char) (b : Bool),
    seg = w ++ (if b then [','] else []) ∧ w ≠ [] ∧ ∀ c ∈ w, isWordChar c = true

/-- A segment of the shape the spec calls a postal code of exactly six
digit tokens. -/
def specPin (seg : List Char) : Prop :=
  seg.length = 6 ∧ seg.all isDig = true

/-- The input shape the claim states for the structured address grammar:
an optional numeric prefix segment, at most five free-text word segments,
a required gazetteer place name, and an optional six-digit postal code,
all separated by single spaces. -/
def specStructuredShape (s : List Char) : Prop :=
  ∃ (street : Option (List Char)) (ws : List (List Char))
    (name : List Char) (pin : Option (List Char)),
    splitSp s = street.toList ++ ws ++ [name] ++ pin.toList ∧
    (∀ st, street = some st → specStreet st) ∧
    ws.length ≤ 5 ∧ (∀ w ∈ ws, specWord w) ∧
    name ∈ gazetteerL ∧
    (∀ p, pin = some p → specPin p)

/-- No mark of the no-space-before set is directly preceded by a space. -/
def noSpacePunct : List Char → Bool
  | [] => true
  | [_] => true
  | a :: b :: r => !decide (a = ' ' ∧ b ∈ noSpaceBeforeSet) && noSpacePunct (b :: r)

/-- No mark of the no-space-before set is directly preceded by two or
more consecutive spaces. -/
def noDblSpacePunct : List Char → Bool
  | [] => true
  | [_] => true
  | [_, _] => true
  | a :: b :: c :: r =>
    !decide (a = ' ' ∧ b = ' ' ∧ c ∈ noSpaceBeforeSet) && noDblSpacePunct (b :: c :: r)

/-- No opening bracket is directly followed by a space. -/
def noBracketSpace : List Char → Bool
  | [] => true
  | [_] => true
  | a :: b :: r => !decide (a ∈ openBrackets ∧ b = ' ') && noBracketSpace (b :: r)
/-! ## General helper lemmas -/

theorem map_weight_eq {t : Option String} {k : Int} {o : String} {w : Int}
    (h : t.map (fun x => (x, k)) = some (o, w)) : w = k := by
  cases t with
  | none => simp at h
  | some v => simp at h; exact h.2.symm

theorem isDig_ne {c z : Char} (hc : isDig c = true) (hz : isDig z = false) : c ≠ z :=
  fun h => by rw [h, hz] at hc; exact absurd hc (by decide)

theorem stripNeg_cons {c : Char} (l : List Char) (h : ¬c = '-') :
    stripNeg (c :: l) = (false, c :: l) := by
  simp [stripNeg, h]

theorem dropSp_cons {c : Char} (r : List Char) (h : ¬c = ' ') :
    dropSp (c :: r) = c :: r := by
  simp [dropSp, List.dropWhile_cons, h]

theorem spanDig_append {d r : List Char} (hall : d.all isDig = true)
    (hr : ∀ c, r.head? = some c → isDig c = false) :
    spanDig (d ++ r) = (d, r) := by
  induction d with
  | nil =>
    cases r with
    | nil => rfl
    | cons c r2 =>
      have hc := hr c rfl
      simp [spanDig, List.takeWhile_cons, List.dropWhile_cons, hc]
  | cons a d2 ih =>
    simp only [List.all_cons, Bool.and_eq_true] at hall
    have ih2 := ih hall.2
    simp only [spanDig, Prod.mk.injEq] at ih2
    simp [spanDig, List.cons_append, List.takeWhile_cons, List.dropWhile_cons, hall.1,
      ih2.1, ih2.2]

theorem lookupT_none_of_head {β : Type} {c : Char} {r : List Char}
    (tab : List (List Char × β)) (h : ∀ p ∈ tab, p.1.head? ≠ some c) :
    lookupT (c :: r) tab = none := by
  induction tab with
  | nil => rfl
  | cons p tl ih =>
    have hp := h p (List.mem_cons_self p tl)
    have hne : ¬(c :: r = p.1) := by
      intro he; rw [← he] at hp; exact hp rfl
    rw [lookupT, if_neg hne]
    exact ih (fun q hq => h q (List.mem_cons_of_mem p hq))

theorem canonical_parts {d : List Char} (h : canonicalNum d = true) :
    d ≠ [] ∧ d.all isDig = true := by
  cases d with
  | nil => simp [canonicalNum] at h
  | cons c r =>
    simp only [canonicalNum, Bool.and_eq_true] at h
    refine ⟨by simp, ?_⟩
    simp [List.all_cons, h.1.1, h.1.2]

/-! ## Weight inversion lemmas for the union alternatives -/

theorem graphDecimal_weight {s : List Char} {o : String} {w : Int}
    (h : graphDecimal s = some (o, w)) : w = 10 := map_weight_eq h

theorem graphDecimalYearFormal_weight {s : List Char} {o : String} {w : Int}
    (h : graphDecimalYearFormal s = some (o, w)) : w = 10 := map_weight_eq h

theorem graphCardinal_weight {s : List Char} {o : String} {w : Int}
    (h : graphCardinal s = some (o, w)) : w = 10 := map_weight_eq h

theorem graphCardinalYearFormal_weight {s : List Char} {o : String} {w : Int}
    (h : graphCardinalYearFormal s = some (o, w)) : w = 10 := map_weight_eq h

theorem graphCardinalYearInformal_weight {s : List Char} {o : String} {w : Int}
    (h : graphCardinalYearInformal s = some (o, w)) : w = -10 := map_weight_eq h

theorem graphExceptions_weight {s : List Char} {o : String} {w : Int}
    (h : graphExceptions s = some (o, w)) : w = 10 := map_weight_eq h

theorem graphDedhDhai_weight {s : List Char} {o : String} {w : Int}
    (h : graphDedhDhai s = some (o, w)) : w = -20 := map_weight_eq h

theorem graphSavva_weight {s : List Char} {o : String} {w : Int}
    (h : graphSavva s = some (o, w)) : w = -10 := map_weight_eq h

theorem graphSadhe_weight {s : List Char} {o : String} {w : Int}
    (h : graphSadhe s = some (o, w)) : w = -10 := map_weight_eq h

theorem graphPaune_weight {s : List Char} {o : String} {w : Int}
    (h : graphPaune s = some (o, w)) : w = -50 := map_weight_eq h

theorem structuredAddress_weight {s : List Char} {o : String} {w : Int}
    (h : structuredAddress s = some (o, w)) : w = 100 := by
  unfold structuredAddress at h
  cases ht : structuredCore s with
  | none => rw [ht] at h; simp at h
  | some t => rw [ht] at h; simp at h; exact h.2.symm

theorem stripNeg_of_digits {d r : List Char} (hne : d ≠ []) (hall : d.all isDig = true) :
    stripNeg (d ++ r) = (false, d ++ r) := by
  obtain ⟨a, d2, rfl⟩ := List.exists_cons_of_ne_nil hne
  have ha : isDig a = true := by
    simp only [List.all_cons, Bool.and_eq_true] at hall; exact hall.1
  rw [List.cons_append]
  exact stripNeg_cons _ (isDig_ne ha (by decide))

theorem spanDig_digits_cons {d r : List Char} {z : Char}
    (hall : d.all isDig = true) (hc0 : isDig z = false) :
    spanDig (d ++ z :: r) = (d, z :: r) :=
  spanDig_append hall (by intro c hc; simp at hc; exact hc ▸ hc0)

/-- Computation of the savva core on an idiomatic input. -/
theorem savvaCore_eq {d q : List Char} {qn : String}
    (hc : canonicalNum d = true) (hr : inCardRange (digitsVal d) = true)
    (hq : quarterlyLookup (dropSp q) = some qn) :
    savvaCore (d ++ '.' :: '2' :: '5' :: q) =
      some (cardTag false (hiSavva ++ " " ++ hindiNum (digitsVal d)) qn) := by
  obtain ⟨hne, hall⟩ := canonical_parts hc
  have hs := stripNeg_of_digits (r := '.' :: '2' :: '5' :: q) hne hall
  have hsp := spanDig_digits_cons (d := d) (r := '2' :: '5' :: q) (z := '.') hall (by decide)
  simp only [savvaCore, hs, hsp]
  rw [if_pos ⟨hc, hr⟩]
  simp only [matchPoint25, List.take, List.drop]
  simp [hq]

/-- Computation of the sadhe core on an idiomatic input. -/
theorem sadheCore_eq {d q : List Char} {qn : String}
    (hc : canonicalNum d = true) (hr : inCardRange (digitsVal d) = true)
    (hq : quarterlyLookup (dropSp q) = some qn) :
    sadheCore (d ++ '.' :: '5' :: q) =
      some (cardTag false (hiSadhe ++ " " ++ hindiNum (digitsVal d)) qn) := by
  obtain ⟨hne, hall⟩ := canonical_parts hc
  have hs := stripNeg_of_digits (r := '.' :: '5' :: q) hne hall
  have hsp := spanDig_digits_cons (d := d) (r := '5' :: q) (z := '.') hall (by decide)
  simp only [sadheCore, hs, hsp]
  rw [if_pos ⟨hc, hr⟩]
  simp only [matchPoint5, List.take, List.drop]
  simp [hq]

/-- C10: beyond the spec's stated idiom set, `<int>.25` with a quarterly
unit produces the `सवा`-prefixed cardinal tag and `<int>.5` the
`साढ़े`-prefixed one, both at union weight -0.1, which is strictly lower
than the 0.1 weight of any generic decimal reading of the same input. -/
theorem c10_savva_sadhe_idioms (d q : List Char) (qn : String)
    (hc : canonicalNum d = true) (hr : inCardRange (digitsVal d) = true)
    (hq : quarterlyLookup (dropSp q) = some qn) :
    graphSavva (d ++ '.' :: '2' :: '5' :: q) =
      some (cardTag false (hiSavva ++ " " ++ hindiNum (digitsVal d)) qn, -10) ∧
    graphSadhe (d ++ '.' :: '5' :: q) =
      some (cardTag false (hiSadhe ++ " " ++ hindiNum (digitsVal d)) qn, -10) ∧
    (∀ o w, graphDecimal (d ++ '.' :: '2' :: '5' :: q) = some (o, w) → (-10 : Int) < w) ∧
    (∀ o w, graphDecimal (d ++ '.' :: '5' :: q) = some (o, w) → (-10 : Int) < w) := by
  refine ⟨?_, ?_, ?_, ?_⟩
  · rw [graphSavva, savvaCore_eq hc hr hq]; rfl
  · rw [graphSadhe, sadheCore_eq hc hr hq]; rfl
  · intro o w h; rw [graphDecimal_weight h]; decide
  · intro o w h; rw [graphDecimal_weight h]; decide

theorem c10_savva_sadhe_idioms_witness :
    graphSavva "2.25kg".toList =
      some (cardTag false (hiSavva ++ " " ++ hindiNum 2) "किलोग्राम", -10) ∧
    graphSadhe "2.5kg".toList =
      some (cardTag false (hiSadhe ++ " " ++ hindiNum 2) "किलोग्राम", -10) := by
  have h := c10_savva_sadhe_idioms "2".toList "kg".toList "किलोग्राम"
    (by decide) (by decide) (by decide)
  exact ⟨h.1, h.2.1⟩

/-- C2: an input matched by one of the fixed fractional idiom
sub-grammars (`1.5` / `2.5` via dedh-dhai, `0.5` and `<int>.5` via sadhe,
`<int>.75` via paune) always carries a strictly lower total path weight
than the generic decimal sub-grammar's path on the same input, so the
idiomatic form is selected by minimum-weight disambiguation. -/
theorem c2_idiom_weight_below_decimal (s : List Char) (o1 o2 : String) (w1 w2 : Int)
    (hid : graphDedhDhai s = some (o1, w1) ∨ graphSadhe s = some (o1, w1) ∨
      graphPaune s = some (o1, w1))
    (hdec : graphDecimal s = some (o2, w2)) : w1 < w2 := by
  rw [graphDecimal_weight hdec]
  rcases hid with h | h | h
  · rw [graphDedhDhai_weight h]; decide
  · rw [graphSadhe_weight h]; decide
  · rw [graphPaune_weight h]; decide

theorem c2_idiom_weight_below_decimal_witness :
    graphDedhDhai "1.5kg".toList = some (cardTag false "डेढ़" "किलोग्राम", -20) ∧
    graphDecimal "1.5kg".toList =
      some (decTag false (hindiNum 1) (fracWords ['5']) "किलोग्राम", 10) ∧
    (-20 : Int) < 10 :=
  ⟨by decide, by decide,
    c2_idiom_weight_below_decimal "1.5kg".toList
      (cardTag false "डेढ़" "किलोग्राम")
      (decTag false (hindiNum 1) (fracWords ['5']) "किलोग्राम") (-20) 10
      (Or.inl (by decide)) (by decide)⟩

/-- C8: for the input `-12kg` in either digit glyph set, the selected
output carries `negative: "true"`, the unit `किलोग्राम`, and the spoken
form of twelve (the docstring-exact word `बारह`) as the cardinal integer
value. -/
theorem c8_negative_twelve_kg :
    measureBest "-12kg".toList = some (cardTag true (hindiNum 12) "किलोग्राम", 10) ∧
    measureBest "-१२kg".toList = some (cardTag true (hindiNum 12) "किलोग्राम", 10) ∧
    hindiNum 12 = "बारह" :=
  ⟨by decide, by decide, by decide⟩

/-! ## Rejection lemmas: which alternatives cannot match a given token shape -/

theorem spanDig_digits {d : List Char} (hall : d.all isDig = true) :
    spanDig d = (d, []) := by
  have h := spanDig_append (r := []) hall (by intro c hc; simp at hc)
  rwa [List.append_nil] at h

theorem decimalCore_none {d r : List Char} {z : Char}
    (hne : d ≠ []) (hall : d.all isDig = true) (hc0 : isDig z = false)
    (hdot : z ≠ '.') : decimalCore (d ++ z :: r) = none := by
  have hs := stripNeg_of_digits (r := z :: r) hne hall
  have hsp := spanDig_digits_cons (d := d) (r := r) hall hc0
  simp [decimalCore, hs, hsp, hdot]

theorem decimalYearFormalCore_none {d r : List Char} {z : Char}
    (hne : d ≠ []) (hall : d.all isDig = true) (hc0 : isDig z = false)
    (hdot : z ≠ '.') : decimalYearFormalCore (d ++ z :: r) = none := by
  have hs := stripNeg_of_digits (r := z :: r) hne hall
  have hsp := spanDig_digits_cons (d := d) (r := r) hall hc0
  simp [decimalYearFormalCore, hs, hsp, hdot]

theorem cardCore_none {d r : List Char} {z : Char}
    (hne : d ≠ []) (hall : d.all isDig = true) (hc0 : isDig z = false)
    (hsp0 : z ≠ ' ') (hlk : ∀ p ∈ unitNoYear, p.1.head? ≠ some z) :
    cardCore (d ++ z :: r) = none := by
  have hs := stripNeg_of_digits (r := z :: r) hne hall
  have hsp := spanDig_digits_cons (d := d) (r := r) hall hc0
  simp only [cardCore, hs, hsp, dropSp_cons _ hsp0, lookupT_none_of_head _ hlk]
  split <;> rfl

theorem yearFormalCore_none {d r : List Char} {z : Char}
    (hne : d ≠ []) (hall : d.all isDig = true) (hc0 : isDig z = false)
    (hsp0 : z ≠ ' ') (hy : z ≠ 'y') :
    yearFormalCore (d ++ z :: r) = none := by
  have hs := stripNeg_of_digits (r := z :: r) hne hall
  have hsp := spanDig_digits_cons (d := d) (r := r) hall hc0
  simp [yearFormalCore, hs, hsp, dropSp_cons _ hsp0, hy]

theorem yearInformalCore_none {d r : List Char} {z : Char}
    (hne : d ≠ []) (hall : d.all isDig = true) (hc0 : isDig z = false)
    (hsp0 : z ≠ ' ') (hy : z ≠ 'y') :
    yearInformalCore (d ++ z :: r) = none := by
  have hs := stripNeg_of_digits (r := z :: r) hne hall
  have hsp := spanDig_digits_cons (d := d) (r := r) hall hc0
  simp [yearInformalCore, hs, hsp, dropSp_cons _ hsp0, hy]

theorem matchDedhDhai_none {d r : List Char} {z : Char}
    (hne : d ≠ []) (hall : d.all isDig = true) (hdot : z ≠ '.') :
    matchDedhDhai (d ++ z :: r) = none := by
  obtain ⟨a, d2, rfl⟩ := List.exists_cons_of_ne_nil hne
  cases d2 with
  | nil => simp [matchDedhDhai, List.take_succ_cons, hdot]
  | cons b d3 =>
    simp only [List.all_cons, Bool.and_eq_true] at hall
    have hb : b ≠ '.' := isDig_ne hall.2.1 (by decide)
    simp [matchDedhDhai, List.take_succ_cons, hb]

theorem dedhDhaiCore_none {d r : List Char} {z : Char}
    (hne : d ≠ []) (hall : d.all isDig = true) (hdot : z ≠ '.') :
    dedhDhaiCore (d ++ z :: r) = none := by
  have hs := stripNeg_of_digits (r := z :: r) hne hall
  simp [dedhDhaiCore, hs, matchDedhDhai_none hne hall hdot]

theorem matchPoint25_none {r : List Char} {c : Char} (h : c ≠ '.') :
    matchPoint25 (c :: r) = none := by
  simp [matchPoint25, List.take_succ_cons, h]

theorem matchPoint5_none {r : List Char} {c : Char} (h : c ≠ '.') :
    matchPoint5 (c :: r) = none := by
  simp [matchPoint5, List.take_succ_cons, h]

theorem matchPoint75_none {r : List Char} {c : Char} (h : c ≠ '.') :
    matchPoint75 (c :: r) = none := by
  simp [matchPoint75, List.take_succ_cons, h]

theorem savvaCore_none {d r : List Char} {z : Char}
    (hne : d ≠ []) (hall : d.all isDig = true) (hc0 : isDig z = false)
    (hdot : z ≠ '.') : savvaCore (d ++ z :: r) = none := by
  have hs := stripNeg_of_digits (r := z :: r) hne hall
  have hsp := spanDig_digits_cons (d := d) (r := r) hall hc0
  simp only [savvaCore, hs, hsp, matchPoint25_none hdot]
  split <;> rfl

theorem sadheCore_none {d r : List Char} {z : Char}
    (hne : d ≠ []) (hall : d.all isDig = true) (hc0 : isDig z = false)
    (hdot : z ≠ '.') : sadheCore (d ++ z :: r) = none := by
  have hs := stripNeg_of_digits (r := z :: r) hne hall
  have hsp := spanDig_digits_cons (d := d) (r := r) hall hc0
  simp only [sadheCore, hs, hsp, matchPoint5_none hdot]
  split <;> rfl

theorem pauneCore_none {d r : List Char} {z : Char}
    (hne : d ≠ []) (hall : d.all isDig = true) (hc0 : isDig z = false)
    (hdot : z ≠ '.') : pauneCore (d ++ z :: r) = none := by
  have hs := stripNeg_of_digits (r := z :: r) hne hall
  have hsp := spanDig_digits_cons (d := d) (r := r) hall hc0
  simp only [pauneCore, hs, hsp, matchPoint75_none hdot]
  cases lookupT d pauneT <;> rfl

theorem exceptionsCore_none {d r : List Char} {z : Char}
    (hne : d ≠ []) (hall : d.all isDig = true) (hc0 : isDig z = false)
    (hsym : isMulSym z = false) : exceptionsCore (d ++ z :: r) = none := by
  have hs := stripNeg_of_digits (r := z :: r) hne hall
  have hsp := spanDig_digits_cons (d := d) (r := r) hall hc0
  simp [exceptionsCore, hs, hsp, hsym]

theorem splitSp_no_space {l : List Char} (h : ∀ c ∈ l, c ≠ ' ') : splitSp l = [l] := by
  induction l with
  | nil => rfl
  | cons c r ih =>
    have hc := h c (List.mem_cons_self c r)
    have ih2 := ih (fun x hx => h x (List.mem_cons_of_mem c hx))
    simp [splitSp, hc, ih2]

theorem gaz_head_not_dig :
    ∀ g ∈ gazetteerL, ∀ c, g.head? = some c → isDig c = false := by decide

theorem kw_head_not_dig :
    ∀ k ∈ contextKeywordsL, ∀ c, k.head? = some c → isDig c = false := by decide

theorem structuredCore_none {s : List Char} (hsp : ∀ c ∈ s, c ≠ ' ')
    (hgaz : s ∉ gazetteerL) : structuredCore s = none := by
  simp only [structuredCore, splitSp_no_space hsp, List.reverse_singleton]
  split
  · rfl
  · simp [structuredCheckBody, hgaz]

theorem addressContextCore_none {s : List Char} (hsp : ∀ c ∈ s, c ≠ ' ')
    (hne : s ≠ []) (hkw : s ∉ contextKeywordsL) : addressContextCore s = none := by
  simp only [addressContextCore, splitSp_no_space hsp]
  simp [List.isEmpty_iff, hne, List.findIdx?_cons, List.findIdx?_nil, hkw]

theorem stripNeg_digits {d : List Char} (hne : d ≠ []) (hall : d.all isDig = true) :
    stripNeg d = (false, d) := by
  have h := stripNeg_of_digits (r := []) hne hall
  rwa [List.append_nil] at h

theorem yearFormalCore_eq {d : List Char} (hc : canonicalNum d = true) :
    yearFormalCore (d ++ ['y', 'r']) =
      some (cardTag false (hindiNum (digitsVal d)) yearFormalWord) := by
  obtain ⟨hne, hall⟩ := canonical_parts hc
  have hs := stripNeg_of_digits (r := ['y', 'r']) hne hall
  have hsp := spanDig_digits_cons (d := d) (r := ['r']) (z := 'y') hall (by decide)
  have hd : dropSp ['y', 'r'] = "yr".toList := by decide
  simp [yearFormalCore, hs, hsp, hc, hd]

theorem yearInformalCore_eq {d : List Char} (hc : canonicalNum d = true)
    (hlt : digitsVal d < 1000) :
    yearInformalCore (d ++ ['y', 'r']) =
      some (cardTag false (hindiNum (digitsVal d)) yearInformalWord) := by
  obtain ⟨hne, hall⟩ := canonical_parts hc
  have hs := stripNeg_of_digits (r := ['y', 'r']) hne hall
  have hsp := spanDig_digits_cons (d := d) (r := ['r']) (z := 'y') hall (by decide)
  have hd : dropSp ['y', 'r'] = "yr".toList := by decide
  simp [yearInformalCore, hs, hsp, hc, hlt, hd]

theorem yearInformalCore_none_big {d : List Char} (hne : d ≠ [])
    (hall : d.all isDig = true) (hge : ¬digitsVal d < 1000) :
    yearInformalCore (d ++ ['y', 'r']) = none := by
  have hs := stripNeg_of_digits (r := ['y', 'r']) hne hall
  have hsp := spanDig_digits_cons (d := d) (r := ['r']) (z := 'y') hall (by decide)
  simp [yearInformalCore, hs, hsp, hge]

/-- C1: a `<cardinal>yr` token resolves to the informal year unit `साल`
when the cardinal value is below one thousand (the small-number branch at
weight -0.1 wins the union), and to the formal year unit `वर्ष` when the
value is one thousand or more (only the large-number branch matches); the
switch is exactly at the thousands threshold. -/
theorem c1_year_threshold (d : List Char) (hc : canonicalNum d = true) :
    (digitsVal d < 1000 →
      measureBest (d ++ "yr".toList) =
        some (cardTag false (hindiNum (digitsVal d)) yearInformalWord, -10)) ∧
    (1000 ≤ digitsVal d →
      measureBest (d ++ "yr".toList) =
        some (cardTag false (hindiNum (digitsVal d)) yearFormalWord, 10)) := by
  obtain ⟨hne, hall⟩ := canonical_parts hc
  have hyr : ("yr".toList : List Char) = ['y', 'r'] := rfl
  rw [hyr]
  have hdigs : ∀ x ∈ d, isDig x = true := List.all_eq_true.mp hall
  have hnsp : ∀ x ∈ d ++ ['y', 'r'], x ≠ ' ' := by
    intro x hx
    rcases List.mem_append.mp hx with h | h
    · exact isDig_ne (hdigs x h) (by decide)
    · simp only [List.mem_cons, List.not_mem_nil, or_false] at h
      rcases h with rfl | rfl <;> decide
  have hgaz : d ++ ['y', 'r'] ∉ gazetteerL := by
    obtain ⟨a, d2, rfl⟩ := List.exists_cons_of_ne_nil hne
    intro hmem
    have ha : isDig a = true := hdigs a (List.mem_cons_self a d2)
    have := gaz_head_not_dig _ hmem a rfl
    rw [ha] at this; exact absurd this (by decide)
  have hkw : d ++ ['y', 'r'] ∉ contextKeywordsL := by
    obtain ⟨a, d2, rfl⟩ := List.exists_cons_of_ne_nil hne
    intro hmem
    have ha : isDig a = true := hdigs a (List.mem_cons_self a d2)
    have := kw_head_not_dig _ hmem a rfl
    rw [ha] at this; exact absurd this (by decide)
  have hnen : d ++ ['y', 'r'] ≠ [] := by
    obtain ⟨a, d2, rfl⟩ := List.exists_cons_of_ne_nil hne
    simp
  have hlk : ∀ p ∈ unitNoYear, p.1.head? ≠ some 'y' := by decide
  have hformal := yearFormalCore_eq hc
  have hbase : ∀ t : Option String, yearInformalCore (d ++ ['y', 'r']) = t →
      measureCandidates (d ++ ['y', 'r']) =
        (cardTag false (hindiNum (digitsVal d)) yearFormalWord, (10 : Int)) ::
          t.toList.map (fun x => (x, (-10 : Int))) := by
    intro t ht
    simp only [measureCandidates, graphDecimal, graphDecimalYearFormal, graphCardinal,
      graphCardinalYearFormal, graphCardinalYearInformal, graphExceptions, graphDedhDhai,
      graphSavva, graphSadhe, graphPaune, addressContext, structuredAddress,
      decimalCore_none (z := 'y') (r := ['r']) hne hall (by decide) (by decide),
      decimalYearFormalCore_none (z := 'y') (r := ['r']) hne hall (by decide) (by decide),
      cardCore_none (z := 'y') (r := ['r']) hne hall (by decide) (by decide) hlk,
      hformal, ht,
      exceptionsCore_none (z := 'y') (r := ['r']) hne hall (by decide) (by decide),
      dedhDhaiCore_none (z := 'y') (r := ['r']) hne hall (by decide),
      savvaCore_none (z := 'y') (r := ['r']) hne hall (by decide) (by decide),
      sadheCore_none (z := 'y') (r := ['r']) hne hall (by decide) (by decide),
      pauneCore_none (z := 'y') (r := ['r']) hne hall (by decide) (by decide),
      addressContextCore_none hnsp hnen hkw,
      structuredCore_none hnsp hgaz]
    cases t <;> simp
  constructor
  · intro hlt
    have hmc := hbase _ (yearInformalCore_eq hc hlt)
    rw [measureBest, hmc]
    simp only [Option.toList_some, List.map_cons, List.map_nil, selectBest, List.foldl]
    rw [if_pos (Or.inl (by decide))]
  · intro hge
    have hmc := hbase _ (yearInformalCore_none_big hne hall (by omega))
    rw [measureBest, hmc]
    rfl

theorem c1_year_threshold_witness :
    measureBest "70yr".toList =
      some (cardTag false (hindiNum 70) yearInformalWord, -10) ∧
    measureBest "7000yr".toList =
      some (cardTag false (hindiNum 7000) yearFormalWord, 10) :=
  ⟨(c1_year_threshold "70".toList (by decide)).1 (by decide),
   (c1_year_threshold "7000".toList (by decide)).2 (by decide)⟩

theorem isMulSym_cases {c : Char} (h : isMulSym c = true) :
    c = 'x' ∨ c = 'X' ∨ c = '*' := by
  simpa [isMulSym, or_assoc] using h

theorem exceptionsCore_eq {d1 d2 : List Char} {c : Char}
    (h1 : canonicalNum d1 = true) (hr1 : inCardRange (digitsVal d1) = true)
    (h2 : canonicalNum d2 = true) (hr2 : inCardRange (digitsVal d2) = true)
    (hsym : isMulSym c = true) :
    exceptionsCore (d1 ++ c :: d2) =
      some (excTag false (hindiNum (digitsVal d1)) false (hindiNum (digitsVal d2))) := by
  obtain ⟨hne1, hall1⟩ := canonical_parts h1
  obtain ⟨hne2, hall2⟩ := canonical_parts h2
  have hcd : isDig c = false := by
    rcases isMulSym_cases hsym with rfl | rfl | rfl <;> decide
  have hs := stripNeg_of_digits (r := c :: d2) hne1 hall1
  have hsp := spanDig_digits_cons (d := d1) (r := d2) hall1 hcd
  have hs2 := stripNeg_digits hne2 hall2
  simp only [exceptionsCore, hs, hsp]
  rw [if_pos ⟨hsym, h1, hr1⟩]
  simp only [hs2, spanDig_digits hall2]
  rw [if_pos ⟨h2, hr2, trivial⟩]

/-- C9: a single token `<cardinal><x|X|*><cardinal>` is selected as the
`graph_exceptions` output: the multiplication symbol becomes the Hindi
connector unit word and the output emits two adjacent tag groups (the
first cardinal tag closed with the connector, then a second
`tokens ... cardinal ...` group for the second cardinal). -/
theorem c9_multiplication_symbol (d1 d2 : List Char) (c : Char)
    (h1 : canonicalNum d1 = true) (hr1 : inCardRange (digitsVal d1) = true)
    (h2 : canonicalNum d2 = true) (hr2 : inCardRange (digitsVal d2) = true)
    (hsym : isMulSym c = true) :
    measureBest (d1 ++ c :: d2) =
      some (excTag false (hindiNum (digitsVal d1)) false (hindiNum (digitsVal d2)), 10) := by
  obtain ⟨hne1, hall1⟩ := canonical_parts h1
  obtain ⟨hne2, hall2⟩ := canonical_parts h2
  have hdigs1 : ∀ x ∈ d1, isDig x = true := List.all_eq_true.mp hall1
  have hdigs2 : ∀ x ∈ d2, isDig x = true := List.all_eq_true.mp hall2
  have hcd : isDig c = false := by
    rcases isMulSym_cases hsym with rfl | rfl | rfl <;> decide
  have hdot : c ≠ '.' := by
    rcases isMulSym_cases hsym with rfl | rfl | rfl <;> decide
  have hspc : c ≠ ' ' := by
    rcases isMulSym_cases hsym with rfl | rfl | rfl <;> decide
  have hy : c ≠ 'y' := by
    rcases isMulSym_cases hsym with rfl | rfl | rfl <;> decide
  have hlk : ∀ p ∈ unitNoYear, p.1.head? ≠ some c := by
    rcases isMulSym_cases hsym with rfl | rfl | rfl <;> decide
  have hnsp : ∀ x ∈ d1 ++ c :: d2, x ≠ ' ' := by
    intro x hx
    rcases List.mem_append.mp hx with h | h
    · exact isDig_ne (hdigs1 x h) (by decide)
    · rcases List.mem_cons.mp h with rfl | h
      · exact hspc
      · exact isDig_ne (hdigs2 x h) (by decide)
  have hgaz : d1 ++ c :: d2 ∉ gazetteerL := by
    obtain ⟨a, d3, rfl⟩ := List.exists_cons_of_ne_nil hne1
    intro hmem
    have ha : isDig a = true := hdigs1 a (List.mem_cons_self a d3)
    have := gaz_head_not_dig _ hmem a rfl
    rw [ha] at this; exact absurd this (by decide)
  have hkw : d1 ++ c :: d2 ∉ contextKeywordsL := by
    obtain ⟨a, d3, rfl⟩ := List.exists_cons_of_ne_nil hne1
    intro hmem
    have ha : isDig a = true := hdigs1 a (List.mem_cons_self a d3)
    have := kw_head_not_dig _ hmem a rfl
    rw [ha] at this; exact absurd this (by decide)
  have hnen : d1 ++ c :: d2 ≠ [] := by
    obtain ⟨a, d3, rfl⟩ := List.exists_cons_of_ne_nil hne1
    simp
  have hexc := exceptionsCore_eq h1 hr1 h2 hr2 hsym
  rw [measureBest]
  have hmc : measureCandidates (d1 ++ c :: d2) =
      [(excTag false (hindiNum (digitsVal d1)) false (hindiNum (digitsVal d2)), (10 : Int))] := by
    simp only [measureCandidates, graphDecimal, graphDecimalYearFormal, graphCardinal,
      graphCardinalYearFormal, graphCardinalYearInformal, graphExceptions, graphDedhDhai,
      graphSavva, graphSadhe, graphPaune, addressContext, structuredAddress,
      decimalCore_none (z := c) (r := d2) hne1 hall1 hcd hdot,
      decimalYearFormalCore_none (z := c) (r := d2) hne1 hall1 hcd hdot,
      cardCore_none (z := c) (r := d2) hne1 hall1 hcd hspc hlk,
      yearFormalCore_none (z := c) (r := d2) hne1 hall1 hcd hspc hy,
      yearInformalCore_none (z := c) (r := d2) hne1 hall1 hcd hspc hy,
      hexc,
      dedhDhaiCore_none (z := c) (r := d2) hne1 hall1 hdot,
      savvaCore_none (z := c) (r := d2) hne1 hall1 hcd hdot,
      sadheCore_none (z := c) (r := d2) hne1 hall1 hcd hdot,
      pauneCore_none (z := c) (r := d2) hne1 hall1 hcd hdot,
      addressContextCore_none hnsp hnen hkw,
      structuredCore_none hnsp hgaz]
    simp
  rw [hmc]
  rfl

theorem c9_multiplication_symbol_witness :
    measureBest "12x13".toList =
      some (excTag false (hindiNum 12) false (hindiNum 13), 10) :=
  c9_multiplication_symbol "12".toList "13".toList 'x'
    (by decide) (by decide) (by decide) (by decide) (by decide)

/-! ## Post-processor lemmas -/

theorem noSpacePunct_tail {x : Char} {l : List Char}
    (h : noSpacePunct (x :: l) = true) : noSpacePunct l = true := by
  cases l with
  | nil => rfl
  | cons y r =>
    simp only [noSpacePunct, Bool.and_eq_true] at h
    exact h.2

theorem noDblSpacePunct_tail {x : Char} {l : List Char}
    (h : noDblSpacePunct (x :: l) = true) : noDblSpacePunct l = true := by
  cases l with
  | nil => rfl
  | cons y r =>
    cases r with
    | nil => rfl
    | cons z r2 =>
      simp only [noDblSpacePunct, Bool.and_eq_true] at h
      exact h.2

theorem noBracketSpace_tail {x : Char} {l : List Char}
    (h : noBracketSpace (x :: l) = true) : noBracketSpace l = true := by
  cases l with
  | nil => rfl
  | cons y r =>
    simp only [noBracketSpace, Bool.and_eq_true] at h
    exact h.2

theorem noSpacePunct_cons {c : Char} {l : List Char}
    (hpair : ∀ p, l.head? = some p → ¬(c = ' ' ∧ p ∈ noSpaceBeforeSet))
    (hl : noSpacePunct l = true) : noSpacePunct (c :: l) = true := by
  cases l with
  | nil => rfl
  | cons y r =>
    have hp := hpair y rfl
    simp only [noSpacePunct, Bool.and_eq_true]
    refine ⟨?_, hl⟩
    rw [not_and_or] at hp
    simpa using hp

theorem noBracketSpace_cons {c : Char} {l : List Char}
    (hpair : ∀ p, l.head? = some p → ¬(c ∈ openBrackets ∧ p = ' '))
    (hl : noBracketSpace l = true) : noBracketSpace (c :: l) = true := by
  cases l with
  | nil => rfl
  | cons y r =>
    have hp := hpair y rfl
    simp only [noBracketSpace, Bool.and_eq_true]
    refine ⟨?_, hl⟩
    rw [not_and_or] at hp
    simpa using hp

/-- A string with no space-punct pair is a fixed point of the first
pass. -/
theorem noSpaceBefore_fixed {l : List Char} (h : noSpacePunct l = true) :
    noSpaceBefore l = l := by
  induction l using noSpaceBefore.induct
  case case1 => rfl
  case case2 c => rfl
  case case3 a b r hab ih =>
    exfalso
    simp only [noSpacePunct, Bool.and_eq_true] at h
    have h1 := h.1
    simp [hab.1, hab.2] at h1
  case case4 a b r hab ih =>
    have h2 := ih (noSpacePunct_tail h)
    simp only [noSpaceBefore]
    rw [if_neg hab, h2]

/-- The first pass leaves no space directly before a no-space-before
mark, provided no mark had two or more spaces before it. -/
theorem noSpacePunct_noSpaceBefore {l : List Char} (h : noDblSpacePunct l = true) :
    noSpacePunct (noSpaceBefore l) = true := by
  induction l using noSpaceBefore.induct
  case case1 => rfl
  case case2 c => rfl
  case case3 a b r hab ih =>
    simp only [noSpaceBefore]
    rw [if_pos hab]
    refine noSpacePunct_cons ?_ (ih (noDblSpacePunct_tail (noDblSpacePunct_tail h)))
    intro p hp hcon
    have hsp : (' ' : Char) ∈ noSpaceBeforeSet := hcon.1 ▸ hab.2
    exact absurd hsp (by decide)
  case case4 a b r hab ih =>
    simp only [noSpaceBefore]
    rw [if_neg hab]
    refine noSpacePunct_cons ?_ (ih (noDblSpacePunct_tail h))
    intro p hp hcon
    cases r with
    | nil =>
      simp only [noSpaceBefore, List.head?_cons] at hp
      obtain rfl : b = p := by exact Option.some.inj hp
      exact hab ⟨hcon.1, hcon.2⟩
    | cons c r2 =>
      by_cases hbc : b = ' ' ∧ c ∈ noSpaceBeforeSet
      · simp only [noSpaceBefore] at hp
        rw [if_pos hbc] at hp
        obtain rfl : c = p := by
          cases hcr : noSpaceBefore r2 with
          | nil => rw [hcr] at hp; exact Option.some.inj hp
          | cons z zs => rw [hcr] at hp; exact Option.some.inj hp
        simp only [noDblSpacePunct, Bool.and_eq_true] at h
        have h1 := h.1
        simp [hcon.1, hbc.1, hcon.2] at h1
      · simp only [noSpaceBefore] at hp
        rw [if_neg hbc] at hp
        obtain rfl : b = p := Option.some.inj hp
        exact hab ⟨hcon.1, hcon.2⟩

/-- The bracket pass never introduces a space-punct pair. -/
theorem noSpacePunct_nsaGo {b : Bool} {l : List Char}
    (h : noSpacePunct l = true) : noSpacePunct (nsaGo b l) = true := by
  induction b, l using nsaGo.induct
  case case1 => exact h
  case case2 flag c rest hc ih =>
    rw [nsaGo, if_pos hc]
    exact ih (noSpacePunct_tail h)
  case case3 flag c rest hc ih =>
    rw [nsaGo, if_neg hc]
    refine noSpacePunct_cons ?_ (ih (noSpacePunct_tail h))
    intro p hp hcon
    cases rest with
    | nil => simp [nsaGo] at hp
    | cons d r2 =>
      have hcs : ¬(decide (c ∈ openBrackets) = true ∧ d = ' ') := by
        intro hx
        have : c ∈ openBrackets := by simpa using hx.1
        revert this
        rw [hcon.1]; decide
      rw [nsaGo, if_neg hcs, List.head?_cons] at hp
      obtain rfl : d = p := Option.some.inj hp
      simp only [noSpacePunct, Bool.and_eq_true] at h
      have h1 := h.1
      simp [hcon.1, hcon.2] at h1

/-- After the bracket pass, no opening bracket is followed by a space,
and when the flag is set the output does not start with a space. -/
theorem noBracketSpace_nsaGo (b : Bool) (l : List Char) :
    noBracketSpace (nsaGo b l) = true ∧
      (b = true → ∀ p, (nsaGo b l).head? = some p → p ≠ ' ') := by
  induction b, l using nsaGo.induct
  case case1 flag => exact ⟨rfl, by intro _ p hp; simp [nsaGo] at hp⟩
  case case2 flag c rest hc ih =>
    rw [nsaGo, if_pos hc]
    exact ⟨ih.1, fun _ => ih.2 rfl⟩
  case case3 flag c rest hc ih =>
    rw [nsaGo, if_neg hc]
    constructor
    · refine noBracketSpace_cons ?_ ih.1
      intro p hp hcon
      have hd : decide (c ∈ openBrackets) = true := by simpa using hcon.1
      exact ih.2 hd p hp hcon.2
    · intro hflag p hp hcon
      rw [List.head?_cons] at hp
      obtain rfl : c = p := Option.some.inj hp
      exact hc ⟨hflag, hcon⟩

/-- A string with no bracket-space pair that does not start with a
pending-deletion space is a fixed point of the bracket pass. -/
theorem nsaGo_fixed {b : Bool} {l : List Char}
    (hhead : b = true → ∀ p, l.head? = some p → p ≠ ' ')
    (h : noBracketSpace l = true) : nsaGo b l = l := by
  induction b, l using nsaGo.induct
  case case1 => rfl
  case case2 flag c rest hc ih =>
    exfalso
    exact hhead hc.1 c (List.head?_cons) hc.2
  case case3 flag c rest hc ih =>
    rw [nsaGo, if_neg hc]
    congr 1
    refine ih ?_ (noBracketSpace_tail h)
    intro hd p hp hcon
    have hcb : c ∈ openBrackets := by simpa using hd
    cases rest with
    | nil => simp at hp
    | cons d r2 =>
      obtain rfl : d = p := Option.some.inj (by simpa using hp)
      simp only [noBracketSpace, Bool.and_eq_true] at h
      have h1 := h.1
      simp [hcb, hcon] at h1

/-- The bracket pass is idempotent. -/
theorem nsaGo_idem (l : List Char) : nsaGo false (nsaGo false l) = nsaGo false l :=
  nsaGo_fixed (fun hb => absurd hb (by decide)) (noBracketSpace_nsaGo false l).1

/-- C3 counterexample: on `a  ,` (two spaces before the comma) the
post-processor deletes only the space adjacent to the comma, so a second
application deletes the remaining one and the output differs. -/
theorem c3_counterexample_double_space :
    postprocess (postprocess "a  ,".toList) ≠ postprocess "a  ,".toList ∧
    postprocess "a  ,".toList = "a ,".toList ∧
    postprocess (postprocess "a  ,".toList) = "a,".toList := by
  refine ⟨by decide, by decide, by decide⟩

/-- C3 amended: the punctuation-spacing post-processor is idempotent on
every sentence in which no mark of the no-space-before set is preceded by
two or more consecutive spaces. -/
theorem c3_amended_idempotent (l : List Char) (h : noDblSpacePunct l = true) :
    postprocess (postprocess l) = postprocess l := by
  have h1 := noSpacePunct_noSpaceBefore h
  have h2 := noSpacePunct_nsaGo (b := false) h1
  simp only [postprocess, noSpaceAfter]
  rw [noSpaceBefore_fixed h2]
  exact nsaGo_idem _

/-- Splitting lemma for the first pass: processing distributes over an
append as long as the left part does not end in a space. -/
theorem noSpaceBefore_append (u v : List Char) (h : u.getLast? ≠ some ' ') :
    noSpaceBefore (u ++ v) = noSpaceBefore u ++ noSpaceBefore v := by
  induction u using noSpaceBefore.induct
  case case1 => simp [noSpaceBefore]
  case case2 c =>
    have hc : ¬c = ' ' := fun he => h (by rw [he]; rfl)
    cases v with
    | nil => simp [noSpaceBefore]
    | cons b v2 =>
      simp only [List.singleton_append, noSpaceBefore]
      rw [if_neg (fun hx => hc hx.1)]
  case case3 a b r hab ih =>
    cases r with
    | nil =>
      simp only [List.cons_append, List.nil_append, noSpaceBefore]
      rw [if_pos hab, if_pos hab]
      simp [noSpaceBefore]
    | cons c r2 =>
      have h2 : (c :: r2).getLast? ≠ some ' ' := by
        rwa [List.getLast?_cons_cons, List.getLast?_cons_cons] at h
      have ih2 := ih h2
      simp only [List.cons_append] at ih2 ⊢
      simp only [noSpaceBefore]
      rw [if_pos hab, if_pos hab]
      simp [ih2]
  case case4 a b r hab ih =>
    have h2 : (b :: r).getLast? ≠ some ' ' := by
      rwa [List.getLast?_cons_cons] at h
    have ih2 := ih h2
    simp only [List.cons_append] at ih2 ⊢
    simp only [noSpaceBefore]
    rw [if_neg hab, if_neg hab]
    simp [ih2]

/-- The bracket pass deletes a space following an opening bracket
anywhere in the sentence, whatever the pass flag. -/
theorem nsaGo_bracket_space {b : Char} (hb : b ∈ openBrackets) :
    ∀ (u : List Char) (flag : Bool) (v : List Char),
      nsaGo flag (u ++ b :: ' ' :: v) = nsaGo flag (u ++ b :: v) := by
  have hball : ∀ x ∈ openBrackets, ¬x = ' ' := by decide
  have hbs : ¬b = ' ' := hball b hb
  intro u
  induction u with
  | nil =>
    intro flag v
    simp only [List.nil_append]
    have e1 : nsaGo flag (b :: ' ' :: v) = b :: nsaGo true (' ' :: v) := by
      rw [nsaGo, if_neg (fun hx => hbs hx.2)]
      congr 1
      simp [hb]
    have e2 : nsaGo flag (b :: v) = b :: nsaGo true v := by
      rw [nsaGo, if_neg (fun hx => hbs hx.2)]
      congr 1
      simp [hb]
    rw [e1, e2]
    congr 1
  | cons c u2 ih =>
    intro flag v
    simp only [List.cons_append]
    rw [nsaGo, nsaGo]
    by_cases hc : flag = true ∧ c = ' '
    · rw [if_pos hc, if_pos hc, ih]
    · rw [if_neg hc, if_neg hc, ih]

/-- C6: the post-processor is the composition of the no-space-before pass
(applied first) with the no-space-after-bracket pass; the first pass
deletes the space immediately preceding each mark of the closed
no-space-before set, keeps the space before quotes, dashes and opening
brackets, and distributes over sentence concatenation; the second pass
deletes the whitespace immediately following an opening bracket. -/
theorem c6_postprocess_structure :
    (∀ l, postprocess l = noSpaceAfter (noSpaceBefore l)) ∧
    (∀ p ∈ noSpaceBeforeSet, ∀ v, noSpaceBefore (' ' :: p :: v) = p :: noSpaceBefore v) ∧
    (∀ q ∈ quotesDashes ++ openBrackets, ∀ v,
      noSpaceBefore (' ' :: q :: v) = ' ' :: noSpaceBefore (q :: v)) ∧
    (∀ u v, u.getLast? ≠ some ' ' →
      noSpaceBefore (u ++ v) = noSpaceBefore u ++ noSpaceBefore v) ∧
    (∀ u v, ∀ b ∈ openBrackets,
      noSpaceAfter (u ++ b :: ' ' :: v) = noSpaceAfter (u ++ b :: v)) := by
  refine ⟨fun l => rfl, ?_, ?_, noSpaceBefore_append, ?_⟩
  · intro p hp v
    rw [noSpaceBefore, if_pos ⟨rfl, hp⟩]
  · intro q hq v
    have hnpall : ∀ x ∈ quotesDashes ++ openBrackets, x ∉ noSpaceBeforeSet := by decide
    have hnp : q ∉ noSpaceBeforeSet := hnpall q hq
    rw [noSpaceBefore, if_neg (fun hx => hnp hx.2)]
  · intro u v b hb
    exact nsaGo_bracket_space hb u false v

theorem c6_postprocess_structure_witness :
    postprocess "( a".toList = noSpaceAfter (noSpaceBefore "( a".toList) ∧
    noSpaceBefore (' ' :: ',' :: "b".toList) = ',' :: noSpaceBefore "b".toList ∧
    noSpaceBefore (' ' :: '(' :: "b".toList) = ' ' :: noSpaceBefore ('(' :: "b".toList) ∧
    noSpaceBefore ("ab".toList ++ " ,".toList) =
      noSpaceBefore "ab".toList ++ noSpaceBefore " ,".toList ∧
    noSpaceAfter ("x".toList ++ '(' :: ' ' :: "y".toList) =
      noSpaceAfter ("x".toList ++ '(' :: "y".toList) :=
  ⟨c6_postprocess_structure.1 _,
   c6_postprocess_structure.2.1 ',' (by decide) _,
   c6_postprocess_structure.2.2.1 '(' (by decide) _,
   c6_postprocess_structure.2.2.2.1 "ab".toList " ,".toList (by decide),
   c6_postprocess_structure.2.2.2.2 "x".toList "y".toList '(' (by decide)⟩

/-! ## Contextual address grammar: claims C4 and C7 -/

theorem splitSp_append_space {k : List Char} (w : List Char)
    (hk : ∀ c ∈ k, c ≠ ' ') : splitSp (k ++ ' ' :: w) = k :: splitSp w := by
  induction k with
  | nil => simp [splitSp]
  | cons c k2 ih =>
    have hc := hk c (List.mem_cons_self c k2)
    have ih2 := ih (fun x hx => hk x (List.mem_cons_of_mem c hx))
    simp [splitSp, hc, ih2]

theorem procPathsF_nil (n : Nat) : procPathsF n [] = [("", 0)] := by cases n <;> rfl

theorem procPathsF_cons (n : Nat) (c : Char) (r : List Char) :
    procPathsF (n + 1) (c :: r) =
      keyPaths ordinalT (-500) (procPathsF n) (c :: r) ++
      keyPaths enToHiL (-300) (procPathsF n) (c :: r) ++
      (if isConvChar c then
        (procPathsF n r).map (fun q => (" " ++ convCharWord c ++ q.1, convCharWeight c + q.2))
      else []) ++
      (if c = ',' then (procPathsF n r).map (fun q => ("," ++ q.1, q.2)) else []) ++
      runPaths (procPathsF n) (c :: r) := rfl

theorem keyPaths_nil {tab : List (List Char × String)} {wt : Int}
    {f : List Char → List (String × Int)} {w : List Char}
    (h : ∀ p ∈ tab, leadsWith p.1 w = false) : keyPaths tab wt f w = [] := by
  induction tab with
  | nil => rfl
  | cons p tab ih =>
    have hp := h p (List.mem_cons_self p tab)
    have ih2 := ih (fun q hq => h q (List.mem_cons_of_mem p hq))
    simp only [keyPaths, List.foldr_cons] at ih2 ⊢
    rw [hp]
    simp only [Bool.false_eq_true, if_false, List.nil_append]
    exact ih2

theorem keysDead {tab : List (List Char × String)} {c : Char} (r : List Char)
    (hk : ∀ p ∈ tab, p.1 ≠ []) (hd : ∀ p ∈ tab, c ∉ p.1) :
    ∀ p ∈ tab, leadsWith p.1 (c :: r) = false := by
  intro p hp
  cases hkey : p.1 with
  | nil => exact absurd hkey (hk p hp)
  | cons x xs =>
    have hx : ¬x = c := by
      intro h
      exact hd p hp (by rw [hkey, h]; exact List.mem_cons_self c xs)
    simp [leadsWith, hx]

theorem plainRunLen_all {w : List Char} (h : ∀ c ∈ w, isPlainChar c = true) :
    plainRunLen w = w.length := by
  unfold plainRunLen
  rw [List.takeWhile_eq_self_iff.mpr h]

theorem isPlainChar_conv {c : Char} (h : isPlainChar c = true) : isConvChar c = false := by
  simp [isPlainChar, Bool.and_eq_true] at h
  exact h.1.1

theorem isPlainChar_space {c : Char} (h : isPlainChar c = true) : c ≠ ' ' := by
  simp [isPlainChar, Bool.and_eq_true] at h
  exact h.1.2

theorem isPlainChar_comma {c : Char} (h : isPlainChar c = true) : ¬(c = ',') := by
  simp [isPlainChar, Bool.and_eq_true] at h
  exact h.2

theorem mem_runPaths_aux {f : List Char → List (String × Int)} {w : List Char}
    {q : String × Int} (il : List Nat) :
    q ∈ il.foldr (fun i acc => ((f (w.drop (i + 1))).map
      (fun p => (" " ++ String.mk (w.take (i + 1)) ++ p.1, 10 + p.2))) ++ acc) [] ↔
    ∃ i ∈ il, ∃ p ∈ f (w.drop (i + 1)),
      q = (" " ++ String.mk (w.take (i + 1)) ++ p.1, 10 + p.2) := by
  induction il with
  | nil => simp
  | cons i il ih =>
    simp only [List.foldr_cons, List.mem_append, List.mem_map, ih, List.mem_cons]
    constructor
    · rintro (⟨p, hp, rfl⟩ | ⟨j, hj, p, hp, rfl⟩)
      · exact ⟨i, Or.inl rfl, p, hp, rfl⟩
      · exact ⟨j, Or.inr hj, p, hp, rfl⟩
    · rintro ⟨j, rfl | hj, p, hp, rfl⟩
      · exact Or.inl ⟨p, hp, rfl⟩
      · exact Or.inr ⟨j, hj, p, hp, rfl⟩

theorem mem_runPaths {f : List Char → List (String × Int)} {w : List Char}
    {q : String × Int} :
    q ∈ runPaths f w ↔ ∃ i < plainRunLen w, ∃ p ∈ f (w.drop (i + 1)),
      q = (" " ++ String.mk (w.take (i + 1)) ++ p.1, 10 + p.2) := by
  unfold runPaths
  rw [mem_runPaths_aux]
  constructor
  · rintro ⟨i, hi, p, hp, rfl⟩
    exact ⟨i, List.mem_range.mp hi, p, hp, rfl⟩
  · rintro ⟨i, hi, p, hp, rfl⟩
    exact ⟨i, List.mem_range.mpr hi, p, hp, rfl⟩

theorem foldl_pick_eq (x : String × Int) :
    ∀ (cs : List (String × Int)) (a : String × Int),
      (a = x ∨ (x.2 < a.2 ∧ x ∈ cs)) → (∀ q ∈ cs, q = x ∨ x.2 < q.2) →
      cs.foldl (fun a b => if b.2 < a.2 ∨ (b.2 = a.2 ∧ strLt b.1 a.1 = true) then b else a)
        a = x := by
  intro cs
  induction cs with
  | nil =>
    intro a h _
    rcases h with h | ⟨_, h⟩
    · exact h
    · cases h
  | cons b cs ih =>
    intro a h hall
    have hb := hall b (List.mem_cons_self b cs)
    have hall2 : ∀ q ∈ cs, q = x ∨ x.2 < q.2 :=
      fun q hq => hall q (List.mem_cons_of_mem b hq)
    simp only [List.foldl_cons]
    apply ih _ _ hall2
    by_cases hcond : (b.2 < a.2 ∨ (b.2 = a.2 ∧ strLt b.1 a.1 = true))
    · rw [if_pos hcond]
      rcases hb with rfl | hlt
      · exact Or.inl rfl
      · rcases h with rfl | ⟨hlt2, hmem⟩
        · exfalso
          rcases hcond with hc | ⟨hc, _⟩ <;> omega
        · rcases List.mem_cons.mp hmem with rfl | hmem2
          · exact absurd hlt (lt_irrefl _)
          · exact Or.inr ⟨hlt, hmem2⟩
    · rw [if_neg hcond]
      rcases h with rfl | ⟨hlt2, hmem⟩
      · exact Or.inl rfl
      · rcases List.mem_cons.mp hmem with rfl | hmem2
        · exact absurd (Or.inl hlt2) hcond
        · exact Or.inr ⟨hlt2, hmem2⟩

theorem selectBest_eq_of_unique {l : List (String × Int)} {x : String × Int}
    (hx : x ∈ l) (hmin : ∀ q ∈ l, q = x ∨ x.2 < q.2) : selectBest l = some x := by
  cases l with
  | nil => cases hx
  | cons c cs =>
    simp only [selectBest, Option.some.injEq]
    apply foldl_pick_eq x cs c
    · rcases List.mem_cons.mp hx with rfl | hmem
      · exact Or.inl rfl
      · rcases hmin c (List.mem_cons_self c cs) with rfl | hlt
        · exact Or.inl rfl
        · exact Or.inr ⟨hlt, hmem⟩
    · exact fun q hq => hmin q (List.mem_cons_of_mem c hq)

theorem ordinalT_keys_ne : ∀ p ∈ ordinalT, p.1 ≠ [] := by decide

theorem enToHiL_keys_ne : ∀ p ∈ enToHiL, p.1 ≠ [] := by decide

theorem procPathsF_plain :
    ∀ n : Nat, ∀ w : List Char, w ≠ [] → w.length ≤ n →
    (∀ c ∈ w, isPlainChar c = true) →
    (∀ c ∈ w, ∀ p ∈ ordinalT, c ∉ p.1) →
    (∀ c ∈ w, ∀ p ∈ enToHiL, c ∉ p.1) →
    ((" " ++ String.mk w, (10 : Int)) ∈ procPathsF n w ∧
      ∀ q ∈ procPathsF n w, q = (" " ++ String.mk w, (10 : Int)) ∨ 10 < q.2) := by
  intro n
  induction n with
  | zero =>
    intro w hne hlen _ _ _
    exact absurd (List.length_eq_zero.mp (Nat.le_zero.mp hlen)) hne
  | succ n ih =>
    intro w hne hlen hplain hord hen
    cases w with
    | nil => exact absurd rfl hne
    | cons c r =>
      have hcp := hplain c (List.mem_cons_self c r)
      have hconv : isConvChar c = false := isPlainChar_conv hcp
      have hcomma : ¬(c = ',') := isPlainChar_comma hcp
      have h1 : keyPaths ordinalT (-500) (procPathsF n) (c :: r) = [] :=
        keyPaths_nil (keysDead r ordinalT_keys_ne
          (fun p hp => hord c (List.mem_cons_self c r) p hp))
      have h2 : keyPaths enToHiL (-300) (procPathsF n) (c :: r) = [] :=
        keyPaths_nil (keysDead r enToHiL_keys_ne
          (fun p hp => hen c (List.mem_cons_self c r) p hp))
      have hrun : plainRunLen (c :: r) = (c :: r).length := plainRunLen_all hplain
      have hcr : (c :: r).length = r.length + 1 := rfl
      have heq : procPathsF (n + 1) (c :: r) = runPaths (procPathsF n) (c :: r) := by
        rw [procPathsF_cons, h1, h2, if_neg (by simp [hconv]), if_neg hcomma]
        simp
      rw [heq]
      have hlen1 : 1 ≤ (c :: r).length := by simp
      constructor
      · rw [mem_runPaths]
        refine ⟨(c :: r).length - 1, by omega, ("", 0), ?_, ?_⟩
        · have hd : (c :: r).length - 1 + 1 = (c :: r).length := by omega
          rw [hd, List.drop_length, procPathsF_nil]
          exact List.mem_cons_self _ _
        · have hd : (c :: r).length - 1 + 1 = (c :: r).length := by omega
          rw [hd, List.take_length]
          simp
      · intro q hq
        obtain ⟨i, hi, p, hpmem, rfl⟩ := mem_runPaths.mp hq
        rw [hrun] at hi
        by_cases hlast : i + 1 = (c :: r).length
        · rw [hlast, List.drop_length, procPathsF_nil] at hpmem
          simp only [List.mem_cons, List.not_mem_nil, or_false] at hpmem
          subst hpmem
          left
          rw [hlast, List.take_length]
          simp
        · have hlt : i + 1 < (c :: r).length := by omega
          have hdne : (c :: r).drop (i + 1) ≠ [] := by
            intro hcon
            have := congrArg List.length hcon
            simp [List.length_drop] at this
            omega
          have hdlen : ((c :: r).drop (i + 1)).length ≤ n := by
            simp only [List.length_drop]
            omega
          have ihp := ih ((c :: r).drop (i + 1)) hdne hdlen
            (fun x hx => hplain x (List.mem_of_mem_drop hx))
            (fun x hx => hord x (List.mem_of_mem_drop hx))
            (fun x hx => hen x (List.mem_of_mem_drop hx))
          have hp2 : 10 ≤ p.2 := by
            rcases ihp.2 p hpmem with h | h
            · rw [h]
            · omega
          right
          simp only
          omega

theorem procWordBest_plain {w : List Char} (hne : w ≠ [])
    (hplain : ∀ c ∈ w, isPlainChar c = true)
    (hord : ∀ c ∈ w, ∀ p ∈ ordinalT, c ∉ p.1)
    (hen : ∀ c ∈ w, ∀ p ∈ enToHiL, c ∉ p.1) :
    procWordBest w = some (" " ++ String.mk w, 10) := by
  obtain ⟨hmem, hall⟩ := procPathsF_plain w.length w hne (le_refl _) hplain hord hen
  exact selectBest_eq_of_unique hmem hall

/-- C4 counterexample: the context keyword `रोड` followed by the plain
word `घर` contains no digit and no convertible character anywhere, yet
the contextual address grammar emits an address tag for it. -/
theorem c4_counterexample_keyword_only :
    (∀ c ∈ "रोड घर".toList, isDig c = false ∧ isConvChar c = false) ∧
    "रोड".toList ∈ contextKeywordsL ∧
    addressContext "रोड घर".toList = some (addrTag " रोड  घर", 125) :=
  ⟨by decide, by decide, by decide⟩

/-- C4 amended: a context keyword followed by a plain word with no
numeric or other convertible content, and whose characters appear in no
ordinal or English-keyword table entry (so no table key can match even
inside the words), still matches the contextual address grammar: the best
path of the token processor passes both words through verbatim at token
weight 0.1 each, giving an address tag of total weight 1.05 + 0.2. -/
theorem c4_amended_keyword_only_window (k w : List Char)
    (hk : k ∈ contextKeywordsL)
    (hkne : k ≠ []) (hwne : w ≠ [])
    (hkp : ∀ c ∈ k, isPlainChar c = true) (hwp : ∀ c ∈ w, isPlainChar c = true)
    (hko : ∀ c ∈ k, ∀ p ∈ ordinalT, c ∉ p.1) (hke : ∀ c ∈ k, ∀ p ∈ enToHiL, c ∉ p.1)
    (hwo : ∀ c ∈ w, ∀ p ∈ ordinalT, c ∉ p.1) (hwe : ∀ c ∈ w, ∀ p ∈ enToHiL, c ∉ p.1) :
    addressContext (k ++ ' ' :: w) =
      some (addrTag ((" " ++ String.mk k) ++ " " ++ (" " ++ String.mk w)), 125) := by
  have hkns : ∀ c ∈ k, c ≠ ' ' := fun c hc => isPlainChar_space (hkp c hc)
  have hwns : ∀ c ∈ w, c ≠ ' ' := fun c hc => isPlainChar_space (hwp c hc)
  have hsegs : splitSp (k ++ ' ' :: w) = [k, w] := by
    rw [splitSp_append_space w hkns, splitSp_no_space hwns]
  have hfi : List.findIdx? (fun seg => decide (seg ∈ contextKeywordsL)) [k, w] = some 0 := by
    simp [List.findIdx?_cons, decide_eq_true hk]
  have hkE : k.isEmpty = false := by
    cases k with
    | nil => exact absurd rfl hkne
    | cons a b => rfl
  have hwE : w.isEmpty = false := by
    cases w with
    | nil => exact absurd rfl hwne
    | cons a b => rfl
  simp only [addressContext, addressContextCore, hsegs, List.any_cons, List.any_nil,
    hkE, hwE, Bool.or_false, Bool.false_or, Bool.or_self, if_false, hfi,
    List.map_cons, List.map_nil, procWordBest_plain hkne hkp hko hke,
    procWordBest_plain hwne hwp hwo hwe, allSomes, joinProc]
  norm_num [String.append_assoc, String.append_empty]

theorem c4_amended_keyword_only_window_witness :
    addressContext ("रोड".toList ++ ' ' :: "घर".toList) =
      some (addrTag ((" " ++ String.mk "रोड".toList) ++ " " ++
        (" " ++ String.mk "घर".toList)), 125) :=
  c4_amended_keyword_only_window "रोड".toList "घर".toList (by decide) (by decide)
    (by decide) (by decide) (by decide) (by decide) (by decide)
    (by decide) (by decide)

/-! ## C7: weight of the contextual address alternative -/

/-- C7 counterexample: on `road मुंबई` both address grammars match, but
the English-keyword token processor carries weight -3.0 inside the
contextual path, so the contextual path's total weight (-1.85) undercuts
the structured grammar's 1.0 and the broader contextual output is
selected instead of the narrower structured one. -/
theorem c7_counterexample_contextual_wins :
    structuredAddress "road मुंबई".toList = some (addrTag "road मुंबई", 100) ∧
    addressContext "road मुंबई".toList = some (addrTag " रोड  मुंबई", -185) ∧
    measureBest "road मुंबई".toList = some (addrTag " रोड  मुंबई", -185) ∧
    addrTag " रोड  मुंबई" ≠ addrTag "road मुंबई" :=
  ⟨by decide, by decide, by decide, by decide⟩

/-- C7 amended: the contextual address grammar's union weight 1.05 is
strictly greater than every other alternative's union weight, so whenever
its matched window contains no negatively weighted token (no ordinal and
no English keyword, hence total weight at least 1.05), every other
matching alternative carries a strictly lower total weight and is
selected in its place. -/
theorem c7_contextual_least_preferred (s : List Char) (o : String) (w : Int)
    (ha : addressContext s = some (o, w)) (hw : 105 ≤ w) :
    ∀ p ∈ measureCandidates s, p = (o, w) ∨ p.2 < w := by
  intro p hp
  simp only [measureCandidates, List.mem_append, Option.mem_toList, Option.mem_def] at hp
  have hmk : (p.1, p.2) = p := rfl
  rcases hp with ((((((((((h | h) | h) | h) | h) | h) | h) | h) | h) | h) | h) | h
  · right
    have hp2 := graphDecimal_weight (o := p.1) (w := p.2) (by rw [hmk]; exact h)
    omega
  · right
    have hp2 := graphDecimalYearFormal_weight (o := p.1) (w := p.2) (by rw [hmk]; exact h)
    omega
  · right
    have hp2 := graphCardinal_weight (o := p.1) (w := p.2) (by rw [hmk]; exact h)
    omega
  · right
    have hp2 := graphCardinalYearFormal_weight (o := p.1) (w := p.2) (by rw [hmk]; exact h)
    omega
  · right
    have hp2 := graphCardinalYearInformal_weight (o := p.1) (w := p.2) (by rw [hmk]; exact h)
    omega
  · right
    have hp2 := graphExceptions_weight (o := p.1) (w := p.2) (by rw [hmk]; exact h)
    omega
  · right
    have hp2 := graphDedhDhai_weight (o := p.1) (w := p.2) (by rw [hmk]; exact h)
    omega
  · right
    have hp2 := graphSavva_weight (o := p.1) (w := p.2) (by rw [hmk]; exact h)
    omega
  · right
    have hp2 := graphSadhe_weight (o := p.1) (w := p.2) (by rw [hmk]; exact h)
    omega
  · right
    have hp2 := graphPaune_weight (o := p.1) (w := p.2) (by rw [hmk]; exact h)
    omega
  · left; rw [h] at ha; exact Option.some.inj ha
  · right
    have hp2 := structuredAddress_weight (o := p.1) (w := p.2) (by rw [hmk]; exact h)
    omega

theorem c7_contextual_least_preferred_witness :
    addressContext "रोड मुंबई".toList = some (addrTag " रोड  मुंबई", 125) ∧
    structuredAddress "रोड मुंबई".toList = some (addrTag "रोड मुंबई", 100) ∧
    (∀ p ∈ measureCandidates "रोड मुंबई".toList,
      p = (addrTag " रोड  मुंबई", 125) ∨ p.2 < 125) :=
  ⟨by decide, by decide,
    c7_contextual_least_preferred "रोड मुंबई".toList (addrTag " रोड  मुंबई") 125
      (by decide) (by decide)⟩

/-! ## Structured address grammar: claim C5 -/

theorem stripComma_concat_comma (w : List Char) : stripComma (w ++ [',']) = (w, true) := by
  simp [stripComma, List.getLast?_concat, List.dropLast_concat]

theorem stripComma_no_comma {w : List Char} (h : w.getLast? ≠ some ',') :
    stripComma w = (w, false) := by
  simp [stripComma, h]

theorem stripComma_decomp {seg w : List Char} {b : Bool}
    (h : stripComma seg = (w, b)) : seg = w ++ (if b then [','] else []) := by
  by_cases hc : seg.getLast? = some ','
  · rw [stripComma, if_pos hc] at h
    injection h with h1 h2
    subst h1; subst h2
    simp [List.dropLast_append_getLast? ',' hc]
  · rw [stripComma, if_neg hc] at h
    injection h with h1 h2
    subst h1; subst h2
    simp

theorem digits_getLast_ne_comma {ds : List Char} (hall : ds.all isDig = true) :
    ds.getLast? ≠ some ',' := by
  intro h
  have hm : (',' : Char) ∈ ds := List.mem_of_mem_getLast? h
  have := List.all_eq_true.mp hall ',' hm
  exact absurd this (by decide)

theorem wordChars_getLast_ne_comma {w : List Char} (hw : ∀ c ∈ w, isWordChar c = true) :
    w.getLast? ≠ some ',' := by
  intro h
  have hm : (',' : Char) ∈ w := List.mem_of_mem_getLast? h
  have := hw ',' hm
  exact absurd this (by decide)

theorem isStreetSeg_of_spec {seg : List Char} (h : specStreet seg) :
    isStreetSeg seg = true := by
  obtain ⟨ds, b, rfl, h1, h4, hall⟩ := h
  have hsc : stripComma (ds ++ (if b then [','] else [])) = (ds, b) := by
    cases b with
    | true => simpa using stripComma_concat_comma ds
    | false => simpa using stripComma_no_comma (digits_getLast_ne_comma hall)
  have hdne : ds.isEmpty = false := by
    cases ds with
    | nil => simp at h1
    | cons x xs => rfl
  simp [isStreetSeg, hsc, hdne, h4, hall]

theorem spec_of_isStreetSeg {seg : List Char} (h : isStreetSeg seg = true) :
    specStreet seg := by
  obtain ⟨w, b, hw⟩ : ∃ w b, stripComma seg = (w, b) := ⟨_, _, rfl⟩
  have hdec := stripComma_decomp hw
  simp only [isStreetSeg, hw, Bool.and_eq_true, decide_eq_true_eq] at h
  refine ⟨w, b, hdec, ?_, h.1.2, h.2⟩
  cases w with
  | nil => simp at h
  | cons x xs => simp

theorem isTextSeg_of_spec {seg : List Char} (h : specWord seg) :
    isTextSeg seg = true := by
  obtain ⟨w, b, rfl, hne, hall⟩ := h
  have hsc : stripComma (w ++ (if b then [','] else [])) = (w, b) := by
    cases b with
    | true => simpa using stripComma_concat_comma w
    | false => simpa using stripComma_no_comma (wordChars_getLast_ne_comma hall)
  have hdne : w.isEmpty = false := by
    cases w with
    | nil => exact absurd rfl hne
    | cons x xs => rfl
  simp [isTextSeg, hsc, hdne, List.all_eq_true.mpr hall]

theorem spec_of_isTextSeg {seg : List Char} (h : isTextSeg seg = true) :
    specWord seg := by
  obtain ⟨w, b, hw⟩ : ∃ w b, stripComma seg = (w, b) := ⟨_, _, rfl⟩
  have hdec := stripComma_decomp hw
  simp only [isTextSeg, hw, Bool.and_eq_true] at h
  refine ⟨w, b, hdec, ?_, List.all_eq_true.mp h.2⟩
  cases w with
  | nil => simp at h
  | cons x xs => simp

theorem specWord_not_street {seg : List Char} (h : specWord seg) :
    isStreetSeg seg = false := by
  obtain ⟨w, b, rfl, hne, hall⟩ := h
  have hsc : stripComma (w ++ (if b then [','] else [])) = (w, b) := by
    cases b with
    | true => simpa using stripComma_concat_comma w
    | false => simpa using stripComma_no_comma (wordChars_getLast_ne_comma hall)
  obtain ⟨x, xs, rfl⟩ := List.exists_cons_of_ne_nil hne
  have hx : isDig x = false := by
    have := hall x (List.mem_cons_self x xs)
    simp only [isWordChar, Bool.and_eq_true, Bool.not_eq_true'] at this
    exact this.1.2
  simp only [List.cons_append] at hsc
  simp [isStreetSeg, hsc, List.all_cons, hx]

theorem gaz_not_pin : ∀ g ∈ gazetteerL, isPinSeg g = false := by decide

theorem specPin_of_isPinSeg {seg : List Char} (h : isPinSeg seg = true) : specPin seg := by
  simp only [isPinSeg, Bool.and_eq_true, decide_eq_true_eq] at h
  exact ⟨h.1, h.2⟩

theorem isPinSeg_of_specPin {seg : List Char} (h : specPin seg) : isPinSeg seg = true := by
  simp [isPinSeg, h.1, h.2]

theorem structuredCheckBody_eq (name : List Char) (street : Option (List Char))
    (ws : List (List Char)) (pin : Option (List Char))
    (hname : name ∈ gazetteerL)
    (hstreet : ∀ st, street = some st → specStreet st)
    (hws5 : ws.length ≤ 5) (hwsw : ∀ w ∈ ws, specWord w) :
    structuredCheckBody name (street.toList ++ ws) pin =
      some (addrTag (structuredBody street ws name pin)) := by
  have hallt : ws.all isTextSeg = true :=
    List.all_eq_true.mpr (fun w hw => isTextSeg_of_spec (hwsw w hw))
  cases street with
  | none =>
    simp only [Option.toList_none, List.nil_append]
    cases ws with
    | nil => simp [structuredCheckBody, hname]
    | cons w0 ws2 =>
      have hw0 := specWord_not_street (hwsw w0 (List.mem_cons_self w0 ws2))
      simp only [structuredCheckBody]
      rw [if_pos hname, if_neg (by simp [hw0]), if_pos ⟨hallt, hws5⟩]
  | some st =>
    have hst := isStreetSeg_of_spec (hstreet st rfl)
    simp only [Option.toList_some, List.singleton_append, structuredCheckBody]
    rw [if_pos hname, if_pos hst, if_pos ⟨hallt, hws5⟩]

theorem structuredCheckBody_sound {name : List Char} {mids : List (List Char)}
    {pin : Option (List Char)} {t : String}
    (h : structuredCheckBody name mids pin = some t) :
    name ∈ gazetteerL ∧
    ∃ street ws, mids = street.toList ++ ws ∧
      (∀ st, street = some st → specStreet st) ∧
      ws.length ≤ 5 ∧ (∀ w ∈ ws, specWord w) ∧
      t = addrTag (structuredBody street ws name pin) := by
  by_cases hname : name ∈ gazetteerL
  case neg =>
    rw [structuredCheckBody.eq_def, if_neg hname] at h
    exact absurd h (by simp)
  refine ⟨hname, ?_⟩
  cases mids with
  | nil =>
    rw [structuredCheckBody.eq_def, if_pos hname] at h
    refine ⟨none, [], ?_, ?_, ?_, ?_, ?_⟩
    · simp
    · exact fun st hst => nomatch hst
    · simp
    · simp
    · exact (Option.some.inj h).symm
  | cons first rest =>
    rw [structuredCheckBody.eq_def, if_pos hname] at h
    by_cases hst : isStreetSeg first = true
    · rw [show (match first :: rest with
          | [] => some (addrTag (structuredBody none [] name pin))
          | first :: restMids =>
            if isStreetSeg first then
              if restMids.all isTextSeg = true ∧ restMids.length ≤ 5 then
                some (addrTag (structuredBody (some first) restMids name pin))
              else none
            else
              if (first :: restMids).all isTextSeg = true ∧ (first :: restMids).length ≤ 5 then
                some (addrTag (structuredBody none (first :: restMids) name pin))
              else none) = (if isStreetSeg first then
              if rest.all isTextSeg = true ∧ rest.length ≤ 5 then
                some (addrTag (structuredBody (some first) rest name pin))
              else none
            else
              if (first :: rest).all isTextSeg = true ∧ (first :: rest).length ≤ 5 then
                some (addrTag (structuredBody none (first :: rest) name pin))
              else none) from rfl, if_pos hst] at h
      by_cases hcond : rest.all isTextSeg = true ∧ rest.length ≤ 5
      case neg => rw [if_neg hcond] at h; exact absurd h (by simp)
      rw [if_pos hcond] at h
      refine ⟨some first, rest, ?_, ?_, ?_, ?_, ?_⟩
      · simp
      · intro st hs
        obtain rfl : first = st := Option.some.inj hs
        exact spec_of_isStreetSeg hst
      · exact hcond.2
      · exact fun w hw => spec_of_isTextSeg (List.all_eq_true.mp hcond.1 w hw)
      · exact (Option.some.inj h).symm
    · rw [show (match first :: rest with
          | [] => some (addrTag (structuredBody none [] name pin))
          | first :: restMids =>
            if isStreetSeg first then
              if restMids.all isTextSeg = true ∧ restMids.length ≤ 5 then
                some (addrTag (structuredBody (some first) restMids name pin))
              else none
            else
              if (first :: restMids).all isTextSeg = true ∧ (first :: restMids).length ≤ 5 then
                some (addrTag (structuredBody none (first :: restMids) name pin))
              else none) = (if isStreetSeg first then
              if rest.all isTextSeg = true ∧ rest.length ≤ 5 then
                some (addrTag (structuredBody (some first) rest name pin))
              else none
            else
              if (first :: rest).all isTextSeg = true ∧ (first :: rest).length ≤ 5 then
                some (addrTag (structuredBody none (first :: rest) name pin))
              else none) from rfl, if_neg hst] at h
      by_cases hcond : (first :: rest).all isTextSeg = true ∧ (first :: rest).length ≤ 5
      case neg => rw [if_neg hcond] at h; exact absurd h (by simp)
      rw [if_pos hcond] at h
      refine ⟨none, first :: rest, ?_, ?_, ?_, ?_, ?_⟩
      · simp
      · exact fun st hs => nomatch hs
      · exact hcond.2
      · exact fun w hw => spec_of_isTextSeg (List.all_eq_true.mp hcond.1 w hw)
      · exact (Option.some.inj h).symm

theorem structuredCore_eq {s : List Char} (street : Option (List Char))
    (ws : List (List Char)) (name : List Char) (pin : Option (List Char))
    (hsegs : splitSp s = street.toList ++ ws ++ [name] ++ pin.toList)
    (hstreet : ∀ st, street = some st → specStreet st)
    (hws5 : ws.length ≤ 5) (hwsw : ∀ w ∈ ws, specWord w)
    (hname : name ∈ gazetteerL)
    (hpin : ∀ p, pin = some p → specPin p) :
    structuredCore s = some (addrTag (structuredBody street ws name pin)) := by
  cases pin with
  | some p =>
    have hrev : (splitSp s).reverse = p :: name :: (street.toList ++ ws).reverse := by
      rw [hsegs]
      simp [List.reverse_append, List.append_assoc]
    simp only [structuredCore, hrev]
    rw [if_pos (isPinSeg_of_specPin (hpin p rfl)), List.reverse_reverse]
    exact structuredCheckBody_eq name street ws (some p) hname hstreet hws5 hwsw
  | none =>
    have hrev : (splitSp s).reverse = name :: (street.toList ++ ws).reverse := by
      rw [hsegs]
      simp [List.reverse_append, List.append_assoc]
    have hnp : ¬isPinSeg name = true := by
      rw [gaz_not_pin name hname]; simp
    simp only [structuredCore, hrev]
    rw [if_neg hnp, List.reverse_reverse]
    exact structuredCheckBody_eq name street ws none hname hstreet hws5 hwsw

theorem structuredCore_sound {s : List Char} {t : String}
    (h : structuredCore s = some t) : specStructuredShape s := by
  cases hrev : (splitSp s).reverse with
  | nil =>
    simp only [structuredCore, hrev] at h
    exact absurd h (by simp)
  | cons lastSeg revInit =>
    have hsegs : splitSp s = revInit.reverse ++ [lastSeg] := by
      rw [← List.reverse_reverse (splitSp s), hrev]
      simp
    simp only [structuredCore, hrev] at h
    by_cases hpin : isPinSeg lastSeg = true
    · rw [if_pos hpin] at h
      cases revInit with
      | nil => simp at h
      | cons nameSeg revMid =>
        obtain ⟨hname, street, ws, hmids, hstreet, hlen, hws, ht⟩ :=
          structuredCheckBody_sound h
        refine ⟨street, ws, nameSeg, some lastSeg, ?_, hstreet, hlen, hws, hname, ?_⟩
        · rw [hsegs]
          simp [hmids, List.append_assoc]
        · intro p hp
          obtain rfl : lastSeg = p := Option.some.inj hp
          exact specPin_of_isPinSeg hpin
    · rw [if_neg hpin] at h
      obtain ⟨hname, street, ws, hmids, hstreet, hlen, hws, ht⟩ :=
        structuredCheckBody_sound h
      refine ⟨street, ws, lastSeg, none, ?_, hstreet, hlen, hws, hname,
        fun p hp => nomatch hp⟩
      rw [hsegs]
      simp [hmids, List.append_assoc]

/-- C5: the structured address grammar accepts exactly the inputs of the
claimed shape (optional one-to-four-digit prefix with separator, at most
five comma-optional free-text words, a required gazetteer place name and
an optional postal code of exactly six digits), and on such an input it
emits the address tag in which every digit is mapped to its per-digit
spoken form while text and place name pass through verbatim. -/
theorem c5_structured_address_exact (s : List Char) :
    ((structuredCore s).isSome = true ↔ specStructuredShape s) ∧
    (∀ street ws name pin,
      splitSp s = street.toList ++ ws ++ [name] ++ pin.toList →
      (∀ st, street = some st → specStreet st) →
      ws.length ≤ 5 → (∀ w ∈ ws, specWord w) →
      name ∈ gazetteerL → (∀ p, pin = some p → specPin p) →
      structuredAddress s = some (addrTag (structuredBody street ws name pin), 100)) := by
  constructor
  · constructor
    · intro hs
      obtain ⟨t, ht⟩ := Option.isSome_iff_exists.mp hs
      exact structuredCore_sound ht
    · intro ⟨street, ws, name, pin, h1, h2, h3, h4, h5, h6⟩
      rw [structuredCore_eq street ws name pin h1 h2 h3 h4 h5 h6]
      rfl
  · intro street ws name pin h1 h2 h3 h4 h5 h6
    rw [structuredAddress, structuredCore_eq street ws name pin h1 h2 h3 h4 h5 h6]
    rfl

theorem c5_structured_address_exact_witness :
    structuredAddress "मुंबई 884404".toList =
      some (addrTag (structuredBody none [] "मुंबई".toList (some "884404".toList)), 100) :=
  (c5_structured_address_exact "मुंबई 884404".toList).2 none [] "मुंबई".toList
    (some "884404".toList) (by decide) (fun st hst => nomatch hst) (by decide)
    (fun w hw => nomatch hw) (by decide)
    (fun p hp => by cases hp; exact ⟨by decide, by decide⟩)

theorem c3_amended_idempotent_witness :
    noDblSpacePunct "x ,".toList = true ∧
    postprocess (postprocess "x ,".toList) = postprocess "x ,".toList :=
  ⟨by decide, c3_amended_idempotent "x ,".toList (by decide)⟩
